import Mathlib

/-!
Verification development for the direct-collocation transcription engine in
`direct_collocation_lutein_1FE.py`.

The script builds a nonlinear program from a continuous-time optimal-control
problem by Radau collocation.  We embed the NLP-assembly loop
(`offline_profile`, lines 130-244) shallowly: the loop body is rendered as a
trace of primitive append operations (`Op`), exactly in the order the Python
code executes `w.append` / `lbw.append` / `g.append` / … statements, and the
mutable lists `w, lbw, ubw, w0, g, lbg, ubg, x_plot, u_plot` together with the
objective accumulator `J` form the replay state (`NLPState`).

Symbolic CasADi `MX` expressions are embedded as small ASTs:
* `Var` names the vector-valued decision-variable blocks
  (`X k` is `MX.sym('X_k', nd)`, `U k` is `MX.sym('U_k', nu)`,
  `Xc k i` is `MX.sym('X_k_i', nd)`, the (i+1)-st collocation state);
* `VExpr` is a vector-valued expression: scalar multiple, sum, difference,
  and the two outputs of the opaque dynamics function
  `f = ca.Function('f', [xd, u], [ODEeq, g])` (`fODE`, `fPath`);
* `SExpr` is a scalar expression (for the objective), with component access.

Machine floats are modelled by exact rationals.  The collocation-coefficient
generator (lines 10-40) is embedded over coefficient-list polynomials in
`srcBasisPoly`.
-/

namespace LuteinDO

/-- Names of the decision-variable blocks appended to `w`.
`X k` is the boundary state `MX.sym('X_' + str(k), nd)`, `U k` the control
`MX.sym('U_' + str(k), nu)`, and `Xc k i` the collocation state
`MX.sym('X_' + str(k) + '_' + str(i), nd)` (the code's `Xc[i]`). -/
inductive Var where
  | X : ℕ → Var
  | U : ℕ → Var
  | Xc : ℕ → ℕ → Var
deriving DecidableEq

/-- Scalar width of each variable block: `nd = 3` states, `nu = 2` controls. -/
def dimOf : Var → ℕ
  | .X _ => 3
  | .U _ => 2
  | .Xc _ _ => 3

/-- Vector-valued `MX` expressions appearing in the constraint list `g`.
`fODE x u` and `fPath x u` are the two outputs `ODEeq, g` of the opaque
dynamics function `f` evaluated at `(x, u)` (line 120). -/
inductive VExpr where
  | var : Var → VExpr
  | smul : ℚ → VExpr → VExpr
  | add : VExpr → VExpr → VExpr
  | sub : VExpr → VExpr → VExpr
  | fODE : VExpr → VExpr → VExpr
  | fPath : VExpr → VExpr → VExpr
deriving DecidableEq

/-- Scalar `MX` expressions appearing in the objective accumulator `J`.
`comp v i` is component `v[i]` of a variable block. -/
inductive SExpr where
  | lit : ℚ → SExpr
  | comp : Var → ℕ → SExpr
  | add : SExpr → SExpr → SExpr
  | sub : SExpr → SExpr → SExpr
  | mul : SExpr → SExpr → SExpr
  | pow : SExpr → ℕ → SExpr
deriving DecidableEq

/-- Which source statement emitted a constraint block: the operational path
constraint (lines 163-167, 193-196, 217-222), the collocation-defect equality
(lines 188-192), or the continuity equality (lines 212-215). -/
inductive BTag where
  | pathT : BTag
  | defectT : BTag
  | contT : BTag
deriving DecidableEq

/-- One primitive append step of the assembly loop.
`avar v lb ub g0` is the statement group `w.append(v); lbw.append(lb);
ubw.append(ub); w0.append(g0)`; `aconstr t e lb ub` is `g.append(e);
lbg.append(lb); ubg.append(ub)`; `axplot` / `auplot` append to the plotting
lists; `aobj N k` is the objective-update block of interval `k` (lines
225-231). -/
inductive Op where
  | avar : Var → List ℚ → List ℚ → List ℚ → Op
  | aconstr : BTag → VExpr → List (WithBot ℚ) → List ℚ → Op
  | axplot : Var → Op
  | auplot : Var → Op
  | aobj : ℕ → ℕ → Op
deriving DecidableEq

/-- The mutable lists of `offline_profile` (lines 130-142) plus the objective
accumulator `J` (line 135). -/
structure NLPState where
  w : List Var
  lbw : List (List ℚ)
  ubw : List (List ℚ)
  w0 : List (List ℚ)
  g : List (BTag × VExpr)
  lbg : List (List (WithBot ℚ))
  ubg : List (List ℚ)
  xplot : List Var
  uplot : List Var
  J : SExpr

/-- Previous control, component 0: the literal initial guess `[0.001, 100]`
(line 151) before interval 0, afterwards `U_(k-1)[0]` (line 233). -/
def prevU0 (k : ℕ) : SExpr :=
  if k = 0 then .lit (1/1000) else .comp (.U (k-1)) 0

/-- Previous control, component 1 (see `prevU0`). -/
def prevU1 (k : ℕ) : SExpr :=
  if k = 0 then .lit 100 else .comp (.U (k-1)) 1

/-- The term `((Uk[0]-Uk_prev[0]) * 4/10)**2` of lines 227/230. -/
def rateSq0 (k : ℕ) : SExpr :=
  .pow (.mul (.sub (.comp (.U k) 0) (prevU0 k)) (.lit (4/10))) 2

/-- The term `((Uk[1]-Uk_prev[1]) * 9/1000)**2` of lines 227/230. -/
def rateSq1 (k : ℕ) : SExpr :=
  .pow (.mul (.sub (.comp (.U k) 1) (prevU1 k)) (.lit (9/1000))) 2

/-- The objective update of interval `k` (lines 226-231).  At `k = N-1` the
Python name `Xk` is already rebound to the fresh boundary state
`X_(k+1) = X_N` (line 205), and `Xk[-1]` is the last of the `nd = 3`
components, index 2. -/
def jUpdate (N k : ℕ) (J : SExpr) : SExpr :=
  if k = N - 1 then
    .sub (.sub (.sub (.add J (.mul (.lit 4) (.comp (.X N) 2)))
      (.mul (.lit (1/1000)) (.comp (.X N) 1))) (rateSq0 k)) (rateSq1 k)
  else if 0 < k then
    .sub (.sub J (rateSq0 k)) (rateSq1 k)
  else J

/-- Replay one primitive append step on the assembly state. -/
def applyOp (s : NLPState) : Op → NLPState
  | .avar v lb ub g0 =>
      { s with w := s.w ++ [v], lbw := s.lbw ++ [lb],
               ubw := s.ubw ++ [ub], w0 := s.w0 ++ [g0] }
  | .aconstr t e lb ub =>
      { s with g := s.g ++ [(t, e)], lbg := s.lbg ++ [lb],
               ubg := s.ubg ++ [ub] }
  | .axplot v => { s with xplot := s.xplot ++ [v] }
  | .auplot v => { s with uplot := s.uplot ++ [v] }
  | .aobj N k => { s with J := jUpdate N k s.J }

/-- The polynomial-interpolated state derivative `xp` at collocation index
`j` of interval `k` (lines 185-186): `xp = C[0,j]*Xk` followed by
`for r in range(d): xp = xp + C[r+1,j]*Xc[r]`. -/
def xpExpr (d : ℕ) (Cm : ℕ → ℕ → ℚ) (k j : ℕ) : VExpr :=
  (List.range d).foldl
    (fun acc r => .add acc (.smul (Cm (r+1) j) (.var (.Xc k r))))
    (.smul (Cm 0 j) (.var (.X k)))

/-- The collocation-defect expression `h*fj - xp` appended at line 190, where
`fj` is the first output of `f(Xc[j-1], Uk)` (line 189). -/
def defectExpr (d : ℕ) (Cm : ℕ → ℕ → ℚ) (h : ℚ) (k j : ℕ) : VExpr :=
  .sub (.smul h (.fODE (.var (.Xc k (j-1))) (.var (.U k)))) (xpExpr d Cm k j)

/-- The end-of-interval state `Xk_end = D[0]*Xk` (line 182) accumulated by
`Xk_end = Xk_end + D[j]*Xc[j-1]` for `j = 1..d` (line 199). -/
def xkEnd (d : ℕ) (Dv : ℕ → ℚ) (k : ℕ) : VExpr :=
  (List.range d).foldl
    (fun acc j => .add acc (.smul (Dv (j+1)) (.var (.Xc k j))))
    (.smul (Dv 0) (.var (.X k)))

/-- Lower bound `[-np.inf, -np.inf, -np.inf]` of a path-constraint row. -/
def negInf3 : List (WithBot ℚ) := [⊥, ⊥, ⊥]

/-- Lower bound `[0, 0, 0]` of an equality-constraint row. -/
def zero3W : List (WithBot ℚ) := [0, 0, 0]

/-- Upper bound `[0, 0, 0]` of a constraint row. -/
def zero3 : List ℚ := [0, 0, 0]

/-- Lifting of the initial condition (lines 144-150): the state `X_0` is a
decision variable whose lower bound, upper bound and initial guess are all
`[0.27, 765., 0.0]`, followed by `x_plot.append(Xk)`. -/
def initOps : List Op :=
  [.avar (.X 0) [27/100, 765, 0] [27/100, 765, 0] [27/100, 765, 0],
   .axplot (.X 0)]

/-- Collocation-state variable appends of interval `k` (lines 171-177):
bounds `[0,0,0]`/`[100, 1e5, 100]`, guess `[1.2, 800, 2]`. -/
def collVarOps (d k : ℕ) : List Op :=
  (List.range d).map
    (fun i => .avar (.Xc k i) [0, 0, 0] [100, 100000, 100] [6/5, 800, 2])

/-- Constraint appends of the collocation loop `for j in range(1,d+1)`
(lines 183-196): the defect equality `h*fj - xp` with bounds `[0,0,0]`,
immediately followed by the operational inequality `qj ≤ 0`. -/
def defectOps (d : ℕ) (Cm : ℕ → ℕ → ℚ) (h : ℚ) (k : ℕ) : List Op :=
  (List.range d).flatMap
    (fun i =>
      [.aconstr .defectT (defectExpr d Cm h k (i+1)) zero3W zero3,
       .aconstr .pathT (.fPath (.var (.Xc k i)) (.var (.U k))) negInf3 zero3])

/-- The append trace of one iteration `k` of the main loop
`for k in range(N)` (lines 154-233), in source statement order. -/
def intervalOps (N d : ℕ) (Cm : ℕ → ℕ → ℚ) (Dv : ℕ → ℚ) (h : ℚ) (k : ℕ) :
    List Op :=
  [.avar (.U k) [1/10, 100] [100, 1000] [30, 1000],
   .auplot (.U k),
   .aconstr .pathT (.fPath (.var (.X k)) (.var (.U k))) negInf3 zero3]
  ++ collVarOps d k
  ++ defectOps d Cm h k
  ++ [.avar (.X (k+1)) [0, 0, 0] [100, 100000, 100] [6/5, 800, 2],
      .axplot (.X (k+1)),
      .aconstr .contT (.sub (xkEnd d Dv k) (.var (.X (k+1)))) zero3W zero3]
  ++ (if k = N - 1 then
        [.aconstr .pathT (.fPath (.var (.X (k+1))) (.var (.U k))) negInf3 zero3]
      else [])
  ++ [.aobj N k]

/-- The full append trace of `offline_profile`'s NLP assembly for `N`
control intervals and degree `d`, with collocation coefficients `Cm`, `Dv`
and interval width `h`. -/
def opsFor (N d : ℕ) (Cm : ℕ → ℕ → ℚ) (Dv : ℕ → ℚ) (h : ℚ) : List Op :=
  initOps ++ (List.range N).flatMap (intervalOps N d Cm Dv h)

/-- The empty NLP of lines 130-142. -/
def initState : NLPState :=
  { w := [], lbw := [], ubw := [], w0 := [], g := [], lbg := [], ubg := [],
    xplot := [], uplot := [], J := .lit 0 }

/-- The assembled NLP. -/
def assemble (N d : ℕ) (Cm : ℕ → ℕ → ℚ) (Dv : ℕ → ℚ) (h : ℚ) : NLPState :=
  (opsFor N d Cm Dv h).foldl applyOp initState

/-! Selector functions projecting the contribution of a single append step
to each state field. -/

/-- Constraint blocks emitted during interval `k`, in source order: the
operational path constraint at `(X_k, U_k)`, then for each collocation index
the defect equality followed by the path constraint at the collocation state,
then the continuity equality, and on the final interval the extra path
constraint at `(X_(k+1), U_k)`. -/
def gInterval (N d : ℕ) (Cm : ℕ → ℕ → ℚ) (Dv : ℕ → ℚ) (h : ℚ) (k : ℕ) :
    List (BTag × VExpr) :=
  (.pathT, .fPath (.var (.X k)) (.var (.U k))) ::
    ((List.range d).flatMap
        (fun i =>
          [(.defectT, defectExpr d Cm h k (i+1)),
           (.pathT, .fPath (.var (.Xc k i)) (.var (.U k)))])
      ++ [(.contT, .sub (xkEnd d Dv k) (.var (.X (k+1))))]
      ++ if k = N - 1 then
           [(.pathT, .fPath (.var (.X (k+1))) (.var (.U k)))]
         else [])

/-- Constraint lower-bound blocks emitted during interval `k`. -/
def lbgInterval (N d k : ℕ) : List (List (WithBot ℚ)) :=
  negInf3 ::
    ((List.range d).flatMap (fun _ => [zero3W, negInf3])
      ++ [zero3W] ++ if k = N - 1 then [negInf3] else [])

/-- Constraint upper-bound blocks emitted during interval `k`. -/
def ubgInterval (N d k : ℕ) : List (List ℚ) :=
  zero3 ::
    ((List.range d).flatMap (fun _ => [zero3, zero3])
      ++ [zero3] ++ if k = N - 1 then [zero3] else [])

/-- Variable blocks appended during interval `k`: the control, the `d`
collocation states, then the next boundary state. -/
def wInterval (d k : ℕ) : List Var :=
  .U k :: ((List.range d).map (.Xc k) ++ [.X (k+1)])

/-- Variable lower-bound blocks appended during interval `k`. -/
def lbwInterval (d : ℕ) : List (List ℚ) :=
  [1/10, 100] :: ((List.range d).map (fun _ => [0, 0, 0]) ++ [[0, 0, 0]])

/-- Variable upper-bound blocks appended during interval `k`. -/
def ubwInterval (d : ℕ) : List (List ℚ) :=
  [100, 1000] ::
    ((List.range d).map (fun _ => [100, 100000, 100]) ++ [[100, 100000, 100]])

/-- Initial-guess blocks appended during interval `k`. -/
def w0Interval (d : ℕ) : List (List ℚ) :=
  [30, 1000] :: ((List.range d).map (fun _ => [6/5, 800, 2]) ++ [[6/5, 800, 2]])

/-- Componentwise evaluation of a vector expression. -/
def veval (ρ : Var → ℕ → ℚ)
    (Fo Fq : (ℕ → ℚ) → (ℕ → ℚ) → ℕ → ℚ) : VExpr → ℕ → ℚ
  | .var v => ρ v
  | .smul c e => fun i => c * veval ρ Fo Fq e i
  | .add a b => fun i => veval ρ Fo Fq a i + veval ρ Fo Fq b i
  | .sub a b => fun i => veval ρ Fo Fq a i - veval ρ Fo Fq b i
  | .fODE x u => Fo (veval ρ Fo Fq x) (veval ρ Fo Fq u)
  | .fPath x u => Fq (veval ρ Fo Fq x) (veval ρ Fo Fq u)

/-- Evaluation of a scalar (objective) expression. -/
def sval (ρ : Var → ℕ → ℚ) : SExpr → ℚ
  | .lit q => q
  | .comp v i => ρ v i
  | .add a b => sval ρ a + sval ρ b
  | .sub a b => sval ρ a - sval ρ b
  | .mul a b => sval ρ a * sval ρ b
  | .pow a n => (sval ρ a) ^ n

/-- The running-cost value of interval `k ≥ 1`: the quadratic control-rate
penalty `((U_k[0]-U_(k-1)[0])·4/10)² + ((U_k[1]-U_(k-1)[1])·9/1000)²`. -/
def penVal (ρ : Var → ℕ → ℚ) (k : ℕ) : ℚ :=
  ((ρ (.U k) 0 - ρ (.U (k-1)) 0) * (4/10))^2
    + ((ρ (.U k) 1 - ρ (.U (k-1)) 1) * (9/1000))^2

/-- The constraint-block tag sequence asserted by the specification: per
interval one path block, then `d` times a defect block followed by a path
block, then one continuity block; after the final interval one extra path
block. -/
def claimTags (N d : ℕ) : List BTag :=
  ((List.range N).flatMap
      (fun _ =>
        .pathT :: (((List.range d).flatMap fun _ => [.defectT, .pathT])
          ++ [.contT])))
    ++ [.pathT]

/-- Scalar offset of the first occurrence of block `v` in the ordered block
list `wl` — the positional decoding used by
`ca.Function('trajectories', [w], [x_plot, u_plot])` (line 252), which reads
each plotted symbol out of the concatenated decision vector by position. -/
def offsetIn : List Var → Var → ℕ
  | [], _ => 0
  | x :: l, v => if x = v then 0 else dimOf x + offsetIn l v

/-- The scalar components of block `v` read positionally out of a flat
decision vector `flat` laid out according to `wl`. -/
def slice (wl : List Var) (flat : List ℚ) (v : Var) : List ℚ :=
  (flat.drop (offsetIn wl v)).take (dimOf v)

/-- The state trajectory decoded from a flat decision vector: one column
per entry of `x_plot` (the `nd × (N+1)` matrix of line 256, as columns). -/
def trajX (s : NLPState) (flat : List ℚ) : List (List ℚ) :=
  s.xplot.map (slice s.w flat)

/-- The control trajectory decoded from a flat decision vector: one column
per entry of `u_plot` (the `nu × N` matrix of line 256, as columns). -/
def trajU (s : NLPState) (flat : List ℚ) : List (List ℚ) :=
  s.uplot.map (slice s.w flat)

/-- Scalar width of a vector expression (every constraint row in this
program is `nd = 3` wide: dynamics outputs, path constraints, and linear
combinations of state blocks). -/
def vdim : VExpr → ℕ
  | .var v => dimOf v
  | .smul _ e => vdim e
  | .add a _ => vdim a
  | .sub a _ => vdim a
  | .fODE _ _ => 3
  | .fPath _ _ => 3

/-- Total scalar length of the decision-variable list `w`. -/
def wScalarLen (s : NLPState) : ℕ := (s.w.map dimOf).sum

/-- Total scalar length of the constraint list `g`. -/
def gScalarLen (s : NLPState) : ℕ := (s.g.map (fun p => vdim p.2)).sum

/-- Positional alignment of the assembled arrays: the scalar lengths of
`lbw`, `ubw`, `w0` each equal that of `w`, and those of `lbg`, `ubg` each
equal that of `g`. -/
def aligned (s : NLPState) : Prop :=
  s.lbw.flatten.length = wScalarLen s
  ∧ s.ubw.flatten.length = wScalarLen s
  ∧ s.w0.flatten.length = wScalarLen s
  ∧ s.lbg.flatten.length = gScalarLen s
  ∧ s.ubg.flatten.length = gScalarLen s

/-- An append step whose blocks have matching scalar widths. -/
def goodOp : Op → Prop
  | .avar v lb ub g0 =>
      lb.length = dimOf v ∧ ub.length = dimOf v ∧ g0.length = dimOf v
  | .aconstr _ e lb ub => lb.length = vdim e ∧ ub.length = vdim e
  | _ => True

/-- Coefficient-array polynomials, as `np.poly1d` stores them, here with the
coefficients in ascending order of degree: addition. -/
def polyAdd : List ℚ → List ℚ → List ℚ
  | [], q => q
  | p, [] => p
  | a :: p, b :: q => (a + b) :: polyAdd p q

/-- Coefficient-array polynomial multiplication (convolution), as performed
by `np.poly1d.__mul__`. -/
def polyMul : List ℚ → List ℚ → List ℚ
  | [], _ => []
  | a :: p, q => polyAdd (q.map (fun b => a * b)) (0 :: polyMul p q)

/-- Horner evaluation of a coefficient-array polynomial. -/
def polyEval (p : List ℚ) (x : ℚ) : ℚ :=
  p.foldr (fun a acc => a + x * acc) 0

/-- The Lagrange basis polynomial construction of lines 23-28:
`p = np.poly1d([1])`, then for each `r ≠ j`,
`p *= np.poly1d([1, -tau_root[r]]) / (tau_root[j]-tau_root[r])`,
over exact rationals (`poly1d / scalar` divides every coefficient). -/
def srcBasisPoly (nodes : List ℚ) (j : ℕ) : List ℚ :=
  (List.range nodes.length).foldl
    (fun p r =>
      if r ≠ j then
        polyMul p ([-(nodes.getD r 0), 1].map
          (fun a => a * (nodes.getD j 0 - nodes.getD r 0)⁻¹))
      else p)
    [1]

/-- The continuity coefficient `D[j] = p(1.0)` of line 31. -/
def srcD (nodes : List ℚ) (j : ℕ) : ℚ := polyEval (srcBasisPoly nodes j) 1

/-- Contribution of an op to the variable list `w`. -/
def wSel : Op → List Var
  | .avar v _ _ _ => [v]
  | _ => []

/-- Contribution of an op to `lbw`. -/
def lbwSel : Op → List (List ℚ)
  | .avar _ lb _ _ => [lb]
  | _ => []

/-- Contribution of an op to `ubw`. -/
def ubwSel : Op → List (List ℚ)
  | .avar _ _ ub _ => [ub]
  | _ => []

/-- Contribution of an op to `w0`. -/
def w0Sel : Op → List (List ℚ)
  | .avar _ _ _ g0 => [g0]
  | _ => []

/-- Contribution of an op to the constraint list `g`. -/
def gSel : Op → List (BTag × VExpr)
  | .aconstr t e _ _ => [(t, e)]
  | _ => []

/-- Contribution of an op to `lbg`. -/
def lbgSel : Op → List (List (WithBot ℚ))
  | .aconstr _ _ lb _ => [lb]
  | _ => []

/-- Contribution of an op to `ubg`. -/
def ubgSel : Op → List (List ℚ)
  | .aconstr _ _ _ ub => [ub]
  | _ => []

/-- Contribution of an op to `x_plot`. -/
def xplotSel : Op → List Var
  | .axplot v => [v]
  | _ => []

/-- Contribution of an op to `u_plot`. -/
def uplotSel : Op → List Var
  | .auplot v => [v]
  | _ => []

/-- Objective updates contained in an op. -/
def jSel : Op → List (ℕ × ℕ)
  | .aobj N k => [(N, k)]
  | _ => []

/-- Replaying a trace appends, field by field, exactly the concatenation of
the per-op contributions, and threads the objective updates in order. -/
theorem foldl_applyOp_fields (l : List Op) : ∀ s : NLPState,
    (l.foldl applyOp s).w = s.w ++ l.flatMap wSel
    ∧ (l.foldl applyOp s).lbw = s.lbw ++ l.flatMap lbwSel
    ∧ (l.foldl applyOp s).ubw = s.ubw ++ l.flatMap ubwSel
    ∧ (l.foldl applyOp s).w0 = s.w0 ++ l.flatMap w0Sel
    ∧ (l.foldl applyOp s).g = s.g ++ l.flatMap gSel
    ∧ (l.foldl applyOp s).lbg = s.lbg ++ l.flatMap lbgSel
    ∧ (l.foldl applyOp s).ubg = s.ubg ++ l.flatMap ubgSel
    ∧ (l.foldl applyOp s).xplot = s.xplot ++ l.flatMap xplotSel
    ∧ (l.foldl applyOp s).uplot = s.uplot ++ l.flatMap uplotSel
    ∧ (l.foldl applyOp s).J =
        (l.flatMap jSel).foldl (fun J p => jUpdate p.1 p.2 J) s.J := by
  induction l with
  | nil => intro s; simp
  | cons op l ih =>
    intro s
    obtain ⟨h1, h2, h3, h4, h5, h6, h7, h8, h9, h10⟩ := ih (applyOp s op)
    cases op <;>
      simp_all [applyOp, wSel, lbwSel, ubwSel, w0Sel, gSel, lbgSel, ubgSel,
        xplotSel, uplotSel, jSel]

/-! Per-interval shapes of each assembled list. -/

/-- A flatMap whose function always returns the empty list is empty. -/
theorem flatMap_const_nil {α β : Type} (l : List α) :
    (l.flatMap fun _ => ([] : List β)) = [] := by
  induction l <;> simp_all

/-- A flatMap of singletons is a map. -/
theorem flatMap_pure {α β : Type} (f : α → β) (l : List α) :
    (l.flatMap fun a => [f a]) = l.map f := by
  induction l <;> simp_all

/-- Per-interval contribution to `g`. -/
theorem intervalOps_gSel (N d : ℕ) (Cm : ℕ → ℕ → ℚ) (Dv : ℕ → ℚ) (h : ℚ)
    (k : ℕ) :
    (intervalOps N d Cm Dv h k).flatMap gSel = gInterval N d Cm Dv h k := by
  simp only [intervalOps, gInterval, collVarOps, defectOps,
    List.flatMap_append, List.flatMap_cons, List.flatMap_nil, gSel,
    List.flatMap_map, List.flatMap_assoc, apply_ite (fun l : List Op => l.flatMap gSel)]
  simp [flatMap_const_nil]

/-- Per-interval contribution to `lbg`. -/
theorem intervalOps_lbgSel (N d : ℕ) (Cm : ℕ → ℕ → ℚ) (Dv : ℕ → ℚ) (h : ℚ)
    (k : ℕ) :
    (intervalOps N d Cm Dv h k).flatMap lbgSel = lbgInterval N d k := by
  simp only [intervalOps, lbgInterval, collVarOps, defectOps,
    List.flatMap_append, List.flatMap_cons, List.flatMap_nil, lbgSel,
    List.flatMap_map, List.flatMap_assoc, apply_ite (fun l : List Op => l.flatMap lbgSel)]
  simp [flatMap_const_nil]

/-- Per-interval contribution to `ubg`. -/
theorem intervalOps_ubgSel (N d : ℕ) (Cm : ℕ → ℕ → ℚ) (Dv : ℕ → ℚ) (h : ℚ)
    (k : ℕ) :
    (intervalOps N d Cm Dv h k).flatMap ubgSel = ubgInterval N d k := by
  simp only [intervalOps, ubgInterval, collVarOps, defectOps,
    List.flatMap_append, List.flatMap_cons, List.flatMap_nil, ubgSel,
    List.flatMap_map, List.flatMap_assoc, apply_ite (fun l : List Op => l.flatMap ubgSel)]
  simp [flatMap_const_nil]

/-- Per-interval contribution to `w`. -/
theorem intervalOps_wSel (N d : ℕ) (Cm : ℕ → ℕ → ℚ) (Dv : ℕ → ℚ) (h : ℚ)
    (k : ℕ) :
    (intervalOps N d Cm Dv h k).flatMap wSel = wInterval d k := by
  simp only [intervalOps, wInterval, collVarOps, defectOps,
    List.flatMap_append, List.flatMap_cons, List.flatMap_nil, wSel,
    List.flatMap_map, List.flatMap_assoc, apply_ite (fun l : List Op => l.flatMap wSel)]
  simp [flatMap_const_nil, flatMap_pure]

/-- Per-interval contribution to `lbw`. -/
theorem intervalOps_lbwSel (N d : ℕ) (Cm : ℕ → ℕ → ℚ) (Dv : ℕ → ℚ) (h : ℚ)
    (k : ℕ) :
    (intervalOps N d Cm Dv h k).flatMap lbwSel = lbwInterval d := by
  simp only [intervalOps, lbwInterval, collVarOps, defectOps,
    List.flatMap_append, List.flatMap_cons, List.flatMap_nil, lbwSel,
    List.flatMap_map, List.flatMap_assoc, apply_ite (fun l : List Op => l.flatMap lbwSel)]
  simp [flatMap_const_nil, flatMap_pure]

/-- Per-interval contribution to `ubw`. -/
theorem intervalOps_ubwSel (N d : ℕ) (Cm : ℕ → ℕ → ℚ) (Dv : ℕ → ℚ) (h : ℚ)
    (k : ℕ) :
    (intervalOps N d Cm Dv h k).flatMap ubwSel = ubwInterval d := by
  simp only [intervalOps, ubwInterval, collVarOps, defectOps,
    List.flatMap_append, List.flatMap_cons, List.flatMap_nil, ubwSel,
    List.flatMap_map, List.flatMap_assoc, apply_ite (fun l : List Op => l.flatMap ubwSel)]
  simp [flatMap_const_nil, flatMap_pure]

/-- Per-interval contribution to `w0`. -/
theorem intervalOps_w0Sel (N d : ℕ) (Cm : ℕ → ℕ → ℚ) (Dv : ℕ → ℚ) (h : ℚ)
    (k : ℕ) :
    (intervalOps N d Cm Dv h k).flatMap w0Sel = w0Interval d := by
  simp only [intervalOps, w0Interval, collVarOps, defectOps,
    List.flatMap_append, List.flatMap_cons, List.flatMap_nil, w0Sel,
    List.flatMap_map, List.flatMap_assoc, apply_ite (fun l : List Op => l.flatMap w0Sel)]
  simp [flatMap_const_nil, flatMap_pure]

/-- Per-interval contribution to `x_plot`. -/
theorem intervalOps_xplotSel (N d : ℕ) (Cm : ℕ → ℕ → ℚ) (Dv : ℕ → ℚ) (h : ℚ)
    (k : ℕ) :
    (intervalOps N d Cm Dv h k).flatMap xplotSel = [.X (k+1)] := by
  simp only [intervalOps, collVarOps, defectOps,
    List.flatMap_append, List.flatMap_cons, List.flatMap_nil, xplotSel,
    List.flatMap_map, List.flatMap_assoc, apply_ite (fun l : List Op => l.flatMap xplotSel)]
  simp [flatMap_const_nil]

/-- Per-interval contribution to `u_plot`. -/
theorem intervalOps_uplotSel (N d : ℕ) (Cm : ℕ → ℕ → ℚ) (Dv : ℕ → ℚ) (h : ℚ)
    (k : ℕ) :
    (intervalOps N d Cm Dv h k).flatMap uplotSel = [.U k] := by
  simp only [intervalOps, collVarOps, defectOps,
    List.flatMap_append, List.flatMap_cons, List.flatMap_nil, uplotSel,
    List.flatMap_map, List.flatMap_assoc, apply_ite (fun l : List Op => l.flatMap uplotSel)]
  simp [flatMap_const_nil]

/-- Per-interval objective updates: exactly one, for interval `k`. -/
theorem intervalOps_jSel (N d : ℕ) (Cm : ℕ → ℕ → ℚ) (Dv : ℕ → ℚ) (h : ℚ)
    (k : ℕ) :
    (intervalOps N d Cm Dv h k).flatMap jSel = [(N, k)] := by
  simp only [intervalOps, collVarOps, defectOps,
    List.flatMap_append, List.flatMap_cons, List.flatMap_nil, jSel,
    List.flatMap_map, List.flatMap_assoc, apply_ite (fun l : List Op => l.flatMap jSel)]
  simp [flatMap_const_nil]

/-- The assembled constraint list is the concatenation of the per-interval
constraint blocks. -/
theorem assemble_g (N d : ℕ) (Cm : ℕ → ℕ → ℚ) (Dv : ℕ → ℚ) (h : ℚ) :
    (assemble N d Cm Dv h).g =
      (List.range N).flatMap (gInterval N d Cm Dv h) := by
  have hf := (foldl_applyOp_fields (opsFor N d Cm Dv h) initState).2.2.2.2.1
  rw [assemble, hf]
  simp only [initState, List.nil_append, opsFor, List.flatMap_append,
    List.flatMap_assoc]
  simp [initOps, gSel]
  exact List.flatMap_congr fun k _ => intervalOps_gSel N d Cm Dv h k

/-- The assembled `lbg` is the concatenation of per-interval blocks. -/
theorem assemble_lbg (N d : ℕ) (Cm : ℕ → ℕ → ℚ) (Dv : ℕ → ℚ) (h : ℚ) :
    (assemble N d Cm Dv h).lbg =
      (List.range N).flatMap (lbgInterval N d) := by
  have hf := (foldl_applyOp_fields (opsFor N d Cm Dv h) initState).2.2.2.2.2.1
  rw [assemble, hf]
  simp only [initState, List.nil_append, opsFor, List.flatMap_append,
    List.flatMap_assoc]
  simp [initOps, lbgSel]
  exact List.flatMap_congr fun k _ => intervalOps_lbgSel N d Cm Dv h k

/-- The assembled `ubg` is the concatenation of per-interval blocks. -/
theorem assemble_ubg (N d : ℕ) (Cm : ℕ → ℕ → ℚ) (Dv : ℕ → ℚ) (h : ℚ) :
    (assemble N d Cm Dv h).ubg =
      (List.range N).flatMap (ubgInterval N d) := by
  have hf :=
    (foldl_applyOp_fields (opsFor N d Cm Dv h) initState).2.2.2.2.2.2.1
  rw [assemble, hf]
  simp only [initState, List.nil_append, opsFor, List.flatMap_append,
    List.flatMap_assoc]
  simp [initOps, ubgSel]
  exact List.flatMap_congr fun k _ => intervalOps_ubgSel N d Cm Dv h k

/-- The assembled decision-variable list: `X_0` followed by the per-interval
blocks `U_k, Xc_(k,1..d), X_(k+1)`. -/
theorem assemble_w (N d : ℕ) (Cm : ℕ → ℕ → ℚ) (Dv : ℕ → ℚ) (h : ℚ) :
    (assemble N d Cm Dv h).w =
      .X 0 :: (List.range N).flatMap (wInterval d) := by
  have hf := (foldl_applyOp_fields (opsFor N d Cm Dv h) initState).1
  rw [assemble, hf]
  simp only [initState, List.nil_append, opsFor, List.flatMap_append,
    List.flatMap_assoc]
  simp [initOps, wSel]
  exact List.flatMap_congr fun k _ => intervalOps_wSel N d Cm Dv h k

/-- The assembled `lbw`: the pinned initial-state block followed by the
per-interval bound blocks. -/
theorem assemble_lbw (N d : ℕ) (Cm : ℕ → ℕ → ℚ) (Dv : ℕ → ℚ) (h : ℚ) :
    (assemble N d Cm Dv h).lbw =
      [27/100, 765, 0] :: (List.range N).flatMap (fun _ => lbwInterval d) := by
  have hf := (foldl_applyOp_fields (opsFor N d Cm Dv h) initState).2.1
  rw [assemble, hf]
  simp only [initState, List.nil_append, opsFor, List.flatMap_append,
    List.flatMap_assoc]
  simp [initOps, lbwSel]
  exact List.flatMap_congr fun k _ => intervalOps_lbwSel N d Cm Dv h k

/-- The assembled `ubw`: the pinned initial-state block followed by the
per-interval bound blocks. -/
theorem assemble_ubw (N d : ℕ) (Cm : ℕ → ℕ → ℚ) (Dv : ℕ → ℚ) (h : ℚ) :
    (assemble N d Cm Dv h).ubw =
      [27/100, 765, 0] :: (List.range N).flatMap (fun _ => ubwInterval d) := by
  have hf := (foldl_applyOp_fields (opsFor N d Cm Dv h) initState).2.2.1
  rw [assemble, hf]
  simp only [initState, List.nil_append, opsFor, List.flatMap_append,
    List.flatMap_assoc]
  simp [initOps, ubwSel]
  exact List.flatMap_congr fun k _ => intervalOps_ubwSel N d Cm Dv h k

/-- The assembled `w0`: the pinned initial-state guess followed by the
per-interval guess blocks. -/
theorem assemble_w0 (N d : ℕ) (Cm : ℕ → ℕ → ℚ) (Dv : ℕ → ℚ) (h : ℚ) :
    (assemble N d Cm Dv h).w0 =
      [27/100, 765, 0] :: (List.range N).flatMap (fun _ => w0Interval d) := by
  have hf := (foldl_applyOp_fields (opsFor N d Cm Dv h) initState).2.2.2.1
  rw [assemble, hf]
  simp only [initState, List.nil_append, opsFor, List.flatMap_append,
    List.flatMap_assoc]
  simp [initOps, w0Sel]
  exact List.flatMap_congr fun k _ => intervalOps_w0Sel N d Cm Dv h k

/-- The assembled plotting list `x_plot` is `X_0, …, X_N`. -/
theorem assemble_xplot (N d : ℕ) (Cm : ℕ → ℕ → ℚ) (Dv : ℕ → ℚ) (h : ℚ) :
    (assemble N d Cm Dv h).xplot = (List.range (N+1)).map .X := by
  have hf :=
    (foldl_applyOp_fields (opsFor N d Cm Dv h) initState).2.2.2.2.2.2.2.1
  rw [assemble, hf]
  simp only [initState, List.nil_append, opsFor, List.flatMap_append,
    List.flatMap_assoc]
  simp only [initOps, List.flatMap_cons, List.flatMap_nil, xplotSel]
  rw [List.flatMap_congr fun k _ => intervalOps_xplotSel N d Cm Dv h k]
  rw [flatMap_pure (fun k => Var.X (k+1)), List.range_succ_eq_map]
  simp [Function.comp, Nat.succ_eq_add_one]

/-- The assembled plotting list `u_plot` is `U_0, …, U_(N-1)`. -/
theorem assemble_uplot (N d : ℕ) (Cm : ℕ → ℕ → ℚ) (Dv : ℕ → ℚ) (h : ℚ) :
    (assemble N d Cm Dv h).uplot = (List.range N).map .U := by
  have hf :=
    (foldl_applyOp_fields (opsFor N d Cm Dv h) initState).2.2.2.2.2.2.2.2.1
  rw [assemble, hf]
  simp only [initState, List.nil_append, opsFor, List.flatMap_append,
    List.flatMap_assoc]
  simp only [initOps, List.flatMap_cons, List.flatMap_nil, uplotSel]
  rw [List.flatMap_congr fun k _ => intervalOps_uplotSel N d Cm Dv h k]
  simp [flatMap_pure Var.U]

/-- The assembled objective is the fold of the per-interval objective
updates over `J = 0`. -/
theorem assemble_J (N d : ℕ) (Cm : ℕ → ℕ → ℚ) (Dv : ℕ → ℚ) (h : ℚ) :
    (assemble N d Cm Dv h).J =
      (List.range N).foldl (fun J k => jUpdate N k J) (.lit 0) := by
  have hf :=
    (foldl_applyOp_fields (opsFor N d Cm Dv h) initState).2.2.2.2.2.2.2.2.2
  rw [assemble, hf]
  simp only [initState, opsFor, List.flatMap_append, List.flatMap_assoc]
  simp only [initOps, List.flatMap_cons, List.flatMap_nil, jSel]
  rw [List.flatMap_congr fun k _ => intervalOps_jSel N d Cm Dv h k]
  rw [flatMap_pure (fun k => ((N, k) : ℕ × ℕ))]
  simp only [List.nil_append]
  rw [List.foldl_map]

/-! Lengths of the per-interval lists, and positional access into the
concatenation of blocks. -/

/-- Length of a flatMap of two-element lists. -/
theorem length_flatMap_two {α β : Type} (l : List α) (f g : α → β) :
    (l.flatMap fun x => [f x, g x]).length = 2 * l.length := by
  induction l with
  | nil => simp
  | cons a l ih => simp [ih]; omega

/-- Each interval emits `2d + 2` constraint blocks, plus one extra on the
final interval. -/
theorem gInterval_length (N d : ℕ) (Cm : ℕ → ℕ → ℚ) (Dv : ℕ → ℚ) (h : ℚ)
    (k : ℕ) :
    (gInterval N d Cm Dv h k).length =
      2 * d + 2 + if k = N - 1 then 1 else 0 := by
  simp only [gInterval, List.length_cons, List.length_append,
    length_flatMap_two, List.length_range, List.length_singleton]
  split <;> simp

/-- Length of the per-interval `lbg` block list. -/
theorem lbgInterval_length (N d k : ℕ) :
    (lbgInterval N d k).length = 2 * d + 2 + if k = N - 1 then 1 else 0 := by
  simp only [lbgInterval, List.length_cons, List.length_append,
    length_flatMap_two, List.length_range, List.length_singleton]
  split <;> simp

/-- Length of the per-interval `ubg` block list. -/
theorem ubgInterval_length (N d k : ℕ) :
    (ubgInterval N d k).length = 2 * d + 2 + if k = N - 1 then 1 else 0 := by
  simp only [ubgInterval, List.length_cons, List.length_append,
    length_flatMap_two, List.length_range, List.length_singleton]
  split <;> simp

/-- Each interval appends `d + 2` variable blocks. -/
theorem wInterval_length (d k : ℕ) : (wInterval d k).length = d + 2 := by
  simp [wInterval]

/-- Indexing into a concatenation of blocks of uniform length `L`: the
element at `L * m + r` is element `r` of block `m`, provided the blocks
before `m` all have length `L`. -/
theorem flatMap_range'_getElem {β : Type} (f : ℕ → List β) (L : ℕ) :
    ∀ (m s len r : ℕ), m < len → (∀ i, i < m → (f (s + i)).length = L) →
      r < (f (s + m)).length →
      ((List.range' s len).flatMap f)[L * m + r]? = (f (s + m))[r]? := by
  intro m
  induction m with
  | zero =>
    intro s len r hm hL hr
    obtain ⟨len', rfl⟩ : ∃ len', len = len' + 1 :=
      ⟨len - 1, by omega⟩
    rw [List.range'_succ]
    simp only [List.flatMap_cons]
    rw [Nat.mul_zero, Nat.zero_add]
    exact List.getElem?_append_left (by simpa using hr)
  | succ m ih =>
    intro s len r hm hL hr
    obtain ⟨len', rfl⟩ : ∃ len', len = len' + 1 :=
      ⟨len - 1, by omega⟩
    rw [List.range'_succ]
    simp only [List.flatMap_cons]
    have hfs : (f s).length = L := by
      have := hL 0 (by omega)
      simpa using this
    have hidx : L * (m + 1) + r = (f s).length + (L * m + r) := by
      rw [hfs]; ring
    rw [hidx, List.getElem?_append_right (by omega)]
    have hsub : (f s).length + (L * m + r) - (f s).length = L * m + r := by
      omega
    rw [hsub]
    have hL' : ∀ i, i < m → (f (s + 1 + i)).length = L := by
      intro i hi
      have := hL (i + 1) (by omega)
      have harg : s + (i + 1) = s + 1 + i := by omega
      rwa [harg] at this
    have harg : s + (m + 1) = s + 1 + m := by omega
    rw [harg] at hr ⊢
    exact ih (s + 1) len' r (by omega) hL' hr

/-- Specialisation of `flatMap_range'_getElem` to `List.range`. -/
theorem flatMap_range_getElem {β : Type} (f : ℕ → List β) (L m n r : ℕ)
    (hm : m < n) (hL : ∀ i, i < m → (f i).length = L)
    (hr : r < (f m).length) :
    ((List.range n).flatMap f)[L * m + r]? = (f m)[r]? := by
  rw [List.range_eq_range']
  have h0 := flatMap_range'_getElem f L m 0 n r hm
    (by intro i hi; simpa using hL i hi) (by simpa using hr)
  simpa using h0

/-! Evaluation semantics for the expression ASTs.  `ρ` assigns (numeric)
component values to every variable block; `Fo` and `Fq` interpret the two
outputs of the opaque dynamics function `f`. -/

/-- The folded expression `xp` evaluates to
`C[0,j]·X_k + Σ_(r=1..d) C[r,j]·Xc_(k,r)` (with the claim's 1-based
collocation index `r` matching the code's `Xc[r-1]`). -/
theorem veval_xpExpr (d : ℕ) (Cm : ℕ → ℕ → ℚ) (k j : ℕ) (ρ : Var → ℕ → ℚ)
    (Fo Fq : (ℕ → ℚ) → (ℕ → ℚ) → ℕ → ℚ) (i : ℕ) :
    veval ρ Fo Fq (xpExpr d Cm k j) i =
      Cm 0 j * ρ (.X k) i +
        ∑ r ∈ Finset.range d, Cm (r+1) j * ρ (.Xc k r) i := by
  induction d with
  | zero => simp [xpExpr, veval]
  | succ d ih =>
    have hstep : xpExpr (d+1) Cm k j =
        .add (xpExpr d Cm k j) (.smul (Cm (d+1) j) (.var (.Xc k d))) := by
      simp [xpExpr, List.range_succ]
    rw [hstep]
    simp only [veval, ih, Finset.sum_range_succ]
    ring

/-- The accumulated end state `Xk_end` evaluates to
`D[0]·X_k + Σ_(j=1..d) D[j]·Xc_(k,j)` (the claim's 1-based collocation
index `j` matching the code's `Xc[j-1]`). -/
theorem veval_xkEnd (d : ℕ) (Dv : ℕ → ℚ) (k : ℕ) (ρ : Var → ℕ → ℚ)
    (Fo Fq : (ℕ → ℚ) → (ℕ → ℚ) → ℕ → ℚ) (i : ℕ) :
    veval ρ Fo Fq (xkEnd d Dv k) i =
      Dv 0 * ρ (.X k) i +
        ∑ j ∈ Finset.range d, Dv (j+1) * ρ (.Xc k j) i := by
  induction d with
  | zero => simp [xkEnd, veval]
  | succ d ih =>
    have hstep : xkEnd (d+1) Dv k =
        .add (xkEnd d Dv k) (.smul (Dv (d+1)) (.var (.Xc k d))) := by
      simp [xkEnd, List.range_succ]
    rw [hstep]
    simp only [veval, ih, Finset.sum_range_succ]
    ring

/-- Conversion between the claim's 1-based sum over `Icc 1 d` and the
code's 0-based sum over `range d`. -/
theorem sum_Icc_shift (d : ℕ) (f : ℕ → ℚ) :
    ∑ r ∈ Finset.Icc 1 d, f r = ∑ r ∈ Finset.range d, f (r + 1) := by
  rw [← Nat.Ico_succ_right, Finset.sum_Ico_eq_sum_range]
  simp [Nat.add_comm]

/-! Evaluation of coefficient-array polynomials is a ring homomorphism, and
the basis construction of lines 23-31 evaluates to the classical Lagrange
basis product. -/

/-- Horner evaluation of a cons. -/
theorem polyEval_cons (a : ℚ) (p : List ℚ) (x : ℚ) :
    polyEval (a :: p) x = a + x * polyEval p x := rfl

/-- Evaluation is additive. -/
theorem polyEval_polyAdd (p : List ℚ) : ∀ (q : List ℚ) (x : ℚ),
    polyEval (polyAdd p q) x = polyEval p x + polyEval q x := by
  induction p with
  | nil => intro q x; simp [polyAdd, polyEval]
  | cons a p ih =>
    intro q x
    cases q with
    | nil => simp [polyAdd, polyEval]
    | cons b q =>
      simp only [polyAdd, polyEval_cons, ih]
      ring

/-- Evaluation commutes with scalar multiplication of the coefficients. -/
theorem polyEval_constMul (c : ℚ) (q : List ℚ) (x : ℚ) :
    polyEval (q.map (fun b => c * b)) x = c * polyEval q x := by
  induction q with
  | nil => simp [polyEval]
  | cons b q ih =>
    simp only [List.map_cons, polyEval_cons, ih]
    ring

/-- Evaluation is multiplicative. -/
theorem polyEval_polyMul (p : List ℚ) : ∀ (q : List ℚ) (x : ℚ),
    polyEval (polyMul p q) x = polyEval p x * polyEval q x := by
  induction p with
  | nil => intro q x; simp [polyMul, polyEval]
  | cons a p ih =>
    intro q x
    simp only [polyMul, polyEval_polyAdd, polyEval_cons, polyEval_constMul,
      ih]
    ring

/-- Evaluation pushes through the guarded product fold of lines 26-28. -/
theorem polyEval_foldl_factors (l : List ℕ) (j : ℕ) (g : ℕ → List ℚ)
    (x : ℚ) : ∀ p0 : List ℚ,
    polyEval
        (l.foldl (fun p r => if r ≠ j then polyMul p (g r) else p) p0) x
      = l.foldl
          (fun acc r => if r ≠ j then acc * polyEval (g r) x else acc)
          (polyEval p0 x) := by
  induction l with
  | nil => intro p0; simp
  | cons r l ih =>
    intro p0
    rw [List.foldl_cons, List.foldl_cons, ih]
    congr 1
    by_cases hr : r = j <;> simp [hr, polyEval_polyMul]

/-- A product over `erase` written as a guarded product over `range`. -/
theorem prod_erase_range (m j : ℕ) (t : ℕ → ℚ) :
    ∏ r ∈ (Finset.range m).erase j, t r
      = ∏ r ∈ Finset.range m, if r ≠ j then t r else 1 := by
  rw [← Finset.filter_ne', Finset.prod_filter]

/-- The guarded multiplication fold of lines 26-28 is the product over the
indices different from `j`. -/
theorem foldl_mul_ite_range (n j : ℕ) (t : ℕ → ℚ) : ∀ a : ℚ,
    (List.range n).foldl (fun acc r => if r ≠ j then acc * t r else acc) a
      = a * ∏ r ∈ (Finset.range n).erase j, t r := by
  induction n with
  | zero => intro a; simp
  | succ n ih =>
    intro a
    rw [List.range_succ, List.foldl_append, List.foldl_cons, List.foldl_nil,
      ih, prod_erase_range, prod_erase_range, Finset.prod_range_succ]
    by_cases hn : n = j
    · simp [hn]
    · simp [hn]; ring

/-- The continuity coefficient `D[j]` is the Lagrange product
`Π_(r ≠ j) (1 - τ_r)/(τ_j - τ_r)`. -/
theorem srcD_eq_prod (nodes : List ℚ) (j : ℕ) :
    srcD nodes j
      = ∏ r ∈ (Finset.range nodes.length).erase j,
          ((1 - nodes.getD r 0) * (nodes.getD j 0 - nodes.getD r 0)⁻¹) := by
  unfold srcD srcBasisPoly
  rw [polyEval_foldl_factors, foldl_mul_ite_range]
  have h1 : polyEval [1] 1 = 1 := by norm_num [polyEval]
  rw [h1, one_mul]
  apply Finset.prod_congr rfl
  intro r _
  simp only [List.map_cons, List.map_nil, polyEval, List.foldr]
  ring

/-- Evaluating Mathlib's Lagrange basis polynomial at `1` gives the same
product. -/
theorem lagrangeBasis_eval_one (n : ℕ) (v : ℕ → ℚ) (j : ℕ) :
    Polynomial.eval 1 (Lagrange.basis (Finset.range n) v j)
      = ∏ r ∈ (Finset.range n).erase j, ((1 - v r) * (v j - v r)⁻¹) := by
  rw [Lagrange.basis, Polynomial.eval_prod]
  apply Finset.prod_congr rfl
  intro r _
  simp only [Lagrange.basisDivisor, Polynomial.eval_mul, Polynomial.eval_C,
    Polynomial.eval_sub, Polynomial.eval_X]
  ring

/-! Positional access into the per-interval block lists. -/

/-- First element of the `i`-th two-element group of a flatMap. -/
theorem flatMap_two_getElem_fst {β : Type} (A B : ℕ → β) (d i : ℕ)
    (hi : i < d) :
    ((List.range d).flatMap fun x => [A x, B x])[2 * i]? = some (A i) := by
  have hfl := flatMap_range_getElem (fun x => [A x, B x]) 2 i d 0 hi
    (fun _ _ => rfl) (by simp)
  simpa using hfl

/-- Second element of the `i`-th two-element group of a flatMap. -/
theorem flatMap_two_getElem_snd {β : Type} (A B : ℕ → β) (d i : ℕ)
    (hi : i < d) :
    ((List.range d).flatMap fun x => [A x, B x])[2 * i + 1]? = some (B i) := by
  have hfl := flatMap_range_getElem (fun x => [A x, B x]) 2 i d 1 hi
    (fun _ _ => rfl) (by simp)
  simpa using hfl

/-- Head of an interval block list. -/
theorem shape_getElem_zero {β : Type} (c0 c1 : β) (e : List β) (A B : ℕ → β)
    (d : ℕ) :
    (c0 :: ((List.range d).flatMap (fun i => [A i, B i]) ++ [c1] ++ e))[0]?
      = some c0 := by
  simp

/-- The block at local index `2j - 1` for `1 ≤ j ≤ d` is the first element
of group `j - 1`. -/
theorem shape_getElem_fst {β : Type} (c0 c1 : β) (e : List β) (A B : ℕ → β)
    (d j : ℕ) (hj1 : 1 ≤ j) (hjd : j ≤ d) :
    (c0 :: ((List.range d).flatMap (fun i => [A i, B i]) ++ [c1]
      ++ e))[2 * j - 1]? = some (A (j-1)) := by
  have hidx : 2 * j - 1 = 2 * (j - 1) + 1 := by omega
  rw [hidx, List.getElem?_cons_succ, List.append_assoc]
  rw [List.getElem?_append_left
    (by rw [length_flatMap_two, List.length_range]; omega)]
  exact flatMap_two_getElem_fst A B d (j-1) (by omega)

/-- The block at local index `2j` for `1 ≤ j ≤ d` is the second element of
group `j - 1`. -/
theorem shape_getElem_snd {β : Type} (c0 c1 : β) (e : List β) (A B : ℕ → β)
    (d j : ℕ) (hj1 : 1 ≤ j) (hjd : j ≤ d) :
    (c0 :: ((List.range d).flatMap (fun i => [A i, B i]) ++ [c1]
      ++ e))[2 * j]? = some (B (j-1)) := by
  have hidx : 2 * j = (2 * (j - 1) + 1) + 1 := by omega
  rw [hidx, List.getElem?_cons_succ, List.append_assoc]
  rw [List.getElem?_append_left
    (by rw [length_flatMap_two, List.length_range]; omega)]
  exact flatMap_two_getElem_snd A B d (j-1) (by omega)

/-- The block at local index `2d + 1` is the post-group element `c1`. -/
theorem shape_getElem_last {β : Type} (c0 c1 : β) (e : List β) (A B : ℕ → β)
    (d : ℕ) :
    (c0 :: ((List.range d).flatMap (fun i => [A i, B i]) ++ [c1]
      ++ e))[2 * d + 1]? = some c1 := by
  have hidx : 2 * d + 1 = (2 * d) + 1 := rfl
  rw [hidx, List.getElem?_cons_succ, List.append_assoc]
  rw [List.getElem?_append_right
    (by rw [length_flatMap_two, List.length_range])]
  rw [length_flatMap_two, List.length_range]
  simp

/-- The block at local index `2d + 2` is the head of the trailing list. -/
theorem shape_getElem_extra {β : Type} (c0 c1 : β) (e : List β) (A B : ℕ → β)
    (d : ℕ) :
    (c0 :: ((List.range d).flatMap (fun i => [A i, B i]) ++ [c1]
      ++ e))[2 * d + 2]? = e[0]? := by
  have hidx : 2 * d + 2 = (2 * d + 1) + 1 := rfl
  rw [hidx, List.getElem?_cons_succ, List.append_assoc]
  rw [List.getElem?_append_right
    (by rw [length_flatMap_two, List.length_range]; omega)]
  rw [length_flatMap_two, List.length_range]
  have : 2 * d + 1 - 2 * d = 1 := by omega
  rw [this]
  simp

/-- Positional access into the assembled constraint list: global index
`(2d+2)·k + r` reads local index `r` of interval `k`. -/
theorem assemble_g_getElem (N d : ℕ) (Cm : ℕ → ℕ → ℚ) (Dv : ℕ → ℚ) (h : ℚ)
    (k r : ℕ) (hk : k < N) (hr : r < (gInterval N d Cm Dv h k).length) :
    (assemble N d Cm Dv h).g[(2*d+2) * k + r]?
      = (gInterval N d Cm Dv h k)[r]? := by
  rw [assemble_g]
  apply flatMap_range_getElem (gInterval N d Cm Dv h) (2*d+2) k N r hk _ hr
  intro i hi
  rw [gInterval_length]
  have hne : ¬(i = N - 1) := by omega
  simp [hne]

/-- Positional access into the assembled `lbg`. -/
theorem assemble_lbg_getElem (N d : ℕ) (Cm : ℕ → ℕ → ℚ) (Dv : ℕ → ℚ) (h : ℚ)
    (k r : ℕ) (hk : k < N) (hr : r < (lbgInterval N d k).length) :
    (assemble N d Cm Dv h).lbg[(2*d+2) * k + r]? = (lbgInterval N d k)[r]? := by
  rw [assemble_lbg]
  apply flatMap_range_getElem (lbgInterval N d) (2*d+2) k N r hk _ hr
  intro i hi
  rw [lbgInterval_length]
  have hne : ¬(i = N - 1) := by omega
  simp [hne]

/-- Positional access into the assembled `ubg`. -/
theorem assemble_ubg_getElem (N d : ℕ) (Cm : ℕ → ℕ → ℚ) (Dv : ℕ → ℚ) (h : ℚ)
    (k r : ℕ) (hk : k < N) (hr : r < (ubgInterval N d k).length) :
    (assemble N d Cm Dv h).ubg[(2*d+2) * k + r]? = (ubgInterval N d k)[r]? := by
  rw [assemble_ubg]
  apply flatMap_range_getElem (ubgInterval N d) (2*d+2) k N r hk _ hr
  intro i hi
  rw [ubgInterval_length]
  have hne : ¬(i = N - 1) := by omega
  simp [hne]

/-- Positional access into the assembled variable list: global index
`(d+2)·k + r + 1` reads local index `r` of interval `k` (the `+1` skips the
lifted initial state `X_0`). -/
theorem assemble_w_getElem (N d : ℕ) (Cm : ℕ → ℕ → ℚ) (Dv : ℕ → ℚ) (h : ℚ)
    (k r : ℕ) (hk : k < N) (hr : r < d + 2) :
    (assemble N d Cm Dv h).w[((d+2) * k + r) + 1]? = (wInterval d k)[r]? := by
  rw [assemble_w, List.getElem?_cons_succ]
  apply flatMap_range_getElem (wInterval d) (d+2) k N r hk
  · intro i _
    exact wInterval_length d i
  · rw [wInterval_length]
    exact hr

/-! Block ordering of the constraint set. -/

/-- A per-interval trailing block that appears only on the last interval can
be pulled out behind the concatenation. -/
theorem flatMap_ite_last {β : Type} (A : ℕ → List β) (x : β) (N : ℕ)
    (hN : 1 ≤ N) :
    (List.range N).flatMap (fun k => A k ++ if k = N - 1 then [x] else [])
      = ((List.range N).flatMap A) ++ [x] := by
  obtain ⟨n, rfl⟩ : ∃ n, N = n + 1 := ⟨N - 1, by omega⟩
  rw [List.range_succ]
  simp only [List.flatMap_append, List.flatMap_cons, List.flatMap_nil]
  have h1 : (List.range n).flatMap
      (fun k => A k ++ if k = n + 1 - 1 then [x] else [])
      = (List.range n).flatMap A := by
    apply List.flatMap_congr
    intro k hk
    have hk' : ¬(k = n) := by
      have := List.mem_range.mp hk
      omega
    simp [hk']
  rw [h1]
  simp [List.range_succ]

/-- Length of a constant flatMap. -/
theorem length_flatMap_const {α β : Type} (l : List α) (t : List β) :
    (l.flatMap fun _ => t).length = l.length * t.length := by
  induction l with
  | nil => simp
  | cons a l ih =>
    simp only [List.flatMap_cons, List.length_append, ih, List.length_cons]
    ring

/-- Tag sequence of one interval's constraint blocks. -/
theorem gInterval_map_fst (N d : ℕ) (Cm : ℕ → ℕ → ℚ) (Dv : ℕ → ℚ) (h : ℚ)
    (k : ℕ) :
    (gInterval N d Cm Dv h k).map Prod.fst
      = (.pathT :: (((List.range d).flatMap fun _ => [.defectT, .pathT])
          ++ [.contT]))
        ++ (if k = N - 1 then [.pathT] else []) := by
  simp only [gInterval, List.map_cons, List.map_append, List.map_flatMap,
    apply_ite (List.map Prod.fst), List.map_nil, List.cons_append,
    List.append_assoc]

/-- The assembled tag sequence, for any `N ≥ 1`. -/
theorem assemble_g_tags (N d : ℕ) (Cm : ℕ → ℕ → ℚ) (Dv : ℕ → ℚ) (h : ℚ)
    (hN : 1 ≤ N) :
    (assemble N d Cm Dv h).g.map Prod.fst = claimTags N d := by
  rw [assemble_g, List.map_flatMap]
  rw [List.flatMap_congr fun k _ => gInterval_map_fst N d Cm Dv h k]
  rw [flatMap_ite_last _ _ N hN]
  rfl

/-- The assembled constraint count, for any `N ≥ 1`. -/
theorem assemble_g_length (N d : ℕ) (Cm : ℕ → ℕ → ℚ) (Dv : ℕ → ℚ) (h : ℚ)
    (hN : 1 ≤ N) :
    (assemble N d Cm Dv h).g.length = N * (2 * d + 2) + 1 := by
  have hlen : (assemble N d Cm Dv h).g.length = (claimTags N d).length := by
    rw [← List.length_map (assemble N d Cm Dv h).g Prod.fst,
      assemble_g_tags N d Cm Dv h hN]
  rw [hlen, claimTags, List.length_append, length_flatMap_const]
  rw [List.length_range, List.length_cons, List.length_append,
    length_flatMap_two, List.length_range, List.length_singleton,
    List.length_singleton]

/-- C1: for every `N ≥ 1` and `d ≥ 1` the transcriber emits the constraint
blocks in the fixed per-interval order — path constraint at the interval
start, then for each of the `d` collocation indices a dynamics-defect block
followed by a path-constraint block, then a continuity block — with exactly
one extra path-constraint block after the final interval, so the constraint
set holds exactly `N·(1 + 2d + 1) + 1` vector blocks in that order. -/
theorem c1_constraint_block_order (N d : ℕ) (Cm : ℕ → ℕ → ℚ) (Dv : ℕ → ℚ)
    (h : ℚ) (hN : 1 ≤ N) (hd : 1 ≤ d) :
    (assemble N d Cm Dv h).g.map Prod.fst = claimTags N d
    ∧ (assemble N d Cm Dv h).g.length = N * (1 + d * 2 + 1) + 1 := by
  have hd' := hd
  refine ⟨assemble_g_tags N d Cm Dv h hN, ?_⟩
  rw [assemble_g_length N d Cm Dv h hN]
  have harith : 1 + d * 2 + 1 = 2 * d + 2 := by omega
  rw [harith]

/-- Witness for `c1_constraint_block_order` at the specification's test
scenario `N = 3`, `d = 2`. -/
theorem c1_constraint_block_order_witness :
    (1 ≤ 3 ∧ 1 ≤ 2)
    ∧ ((assemble 3 2 (fun _ _ => 1) (fun _ => 1) 24).g.map Prod.fst
          = claimTags 3 2
        ∧ (assemble 3 2 (fun _ _ => 1) (fun _ => 1) 24).g.length
          = 3 * (1 + 2 * 2 + 1) + 1) :=
  ⟨⟨by norm_num, by norm_num⟩,
    c1_constraint_block_order 3 2 (fun _ _ => 1) (fun _ => 1) 24
      (by norm_num) (by norm_num)⟩

/-! Content of the defect, path and continuity rows. -/

/-- A lower bound on the interval block-list length. -/
theorem gInterval_length_ge (N d : ℕ) (Cm : ℕ → ℕ → ℚ) (Dv : ℕ → ℚ) (h : ℚ)
    (k : ℕ) : 2 * d + 2 ≤ (gInterval N d Cm Dv h k).length := by
  rw [gInterval_length]
  split <;> omega

/-- A lower bound on the interval `lbg` block-list length. -/
theorem lbgInterval_length_ge (N d k : ℕ) :
    2 * d + 2 ≤ (lbgInterval N d k).length := by
  rw [lbgInterval_length]
  split <;> omega

/-- A lower bound on the interval `ubg` block-list length. -/
theorem ubgInterval_length_ge (N d k : ℕ) :
    2 * d + 2 ≤ (ubgInterval N d k).length := by
  rw [ubgInterval_length]
  split <;> omega

/-- C2: for every interval `k < N` and collocation index `1 ≤ j ≤ d`, the
emitted dynamics-defect block at constraint position `k(2d+2) + 2j - 1` is
`h·fj − xp` with both bounds zero, where
`xp = C[0][j]·X_k + Σ_(r=1..d) C[r][j]·Xc_(k,r)` and `(fj, qj)` is the
dynamics evaluated at `(Xc_(k,j), U_k)`; the inequality `qj ≤ 0` follows
immediately after it. -/
theorem c2_defect_constraint (N d : ℕ) (Cm : ℕ → ℕ → ℚ) (Dv : ℕ → ℚ)
    (h : ℚ) (k j : ℕ) (hk : k < N) (hj1 : 1 ≤ j) (hjd : j ≤ d) :
    (assemble N d Cm Dv h).g[k * (2*d+2) + (2*j - 1)]?
      = some (.defectT, defectExpr d Cm h k j)
    ∧ (assemble N d Cm Dv h).lbg[k * (2*d+2) + (2*j - 1)]? = some zero3W
    ∧ (assemble N d Cm Dv h).ubg[k * (2*d+2) + (2*j - 1)]? = some zero3
    ∧ (assemble N d Cm Dv h).g[k * (2*d+2) + 2*j]?
      = some (.pathT, .fPath (.var (.Xc k (j-1))) (.var (.U k)))
    ∧ (assemble N d Cm Dv h).lbg[k * (2*d+2) + 2*j]? = some negInf3
    ∧ (assemble N d Cm Dv h).ubg[k * (2*d+2) + 2*j]? = some zero3
    ∧ ∀ (ρ : Var → ℕ → ℚ) (Fo Fq : (ℕ → ℚ) → (ℕ → ℚ) → ℕ → ℚ) (i : ℕ),
        veval ρ Fo Fq (defectExpr d Cm h k j) i
          = h * Fo (ρ (.Xc k (j-1))) (ρ (.U k)) i
            - (Cm 0 j * ρ (.X k) i
                + ∑ r ∈ Finset.Icc 1 d, Cm r j * ρ (.Xc k (r-1)) i) := by
  have hmul : ∀ r : ℕ, k * (2*d+2) + r = (2*d+2) * k + r := by
    intro r
    ring
  have hj' : j - 1 + 1 = j := by omega
  have hlt1 : 2 * j - 1 < 2 * d + 2 := by omega
  have hlt2 : 2 * j < 2 * d + 2 := by omega
  refine ⟨?_, ?_, ?_, ?_, ?_, ?_, ?_⟩
  · rw [hmul, assemble_g_getElem N d Cm Dv h k (2*j - 1) hk
      (by have := gInterval_length_ge N d Cm Dv h k; omega)]
    rw [gInterval]
    have hs := shape_getElem_fst
      ((.pathT, .fPath (.var (.X k)) (.var (.U k))) : BTag × VExpr)
      (.contT, .sub (xkEnd d Dv k) (.var (.X (k+1))))
      (if k = N - 1 then
        [(.pathT, .fPath (.var (.X (k+1))) (.var (.U k)))] else [])
      (fun i => (.defectT, defectExpr d Cm h k (i+1)))
      (fun i => (.pathT, .fPath (.var (.Xc k i)) (.var (.U k))))
      d j hj1 hjd
    simpa [hj'] using hs
  · rw [hmul, assemble_lbg_getElem N d Cm Dv h k (2*j - 1) hk
      (by have := lbgInterval_length_ge N d k; omega)]
    rw [lbgInterval]
    exact shape_getElem_fst negInf3 zero3W
      (if k = N - 1 then [negInf3] else [])
      (fun _ => zero3W) (fun _ => negInf3) d j hj1 hjd
  · rw [hmul, assemble_ubg_getElem N d Cm Dv h k (2*j - 1) hk
      (by have := ubgInterval_length_ge N d k; omega)]
    rw [ubgInterval]
    exact shape_getElem_fst zero3 zero3
      (if k = N - 1 then [zero3] else [])
      (fun _ => zero3) (fun _ => zero3) d j hj1 hjd
  · rw [hmul, assemble_g_getElem N d Cm Dv h k (2*j) hk
      (by have := gInterval_length_ge N d Cm Dv h k; omega)]
    rw [gInterval]
    have hs := shape_getElem_snd
      ((.pathT, .fPath (.var (.X k)) (.var (.U k))) : BTag × VExpr)
      (.contT, .sub (xkEnd d Dv k) (.var (.X (k+1))))
      (if k = N - 1 then
        [(.pathT, .fPath (.var (.X (k+1))) (.var (.U k)))] else [])
      (fun i => (.defectT, defectExpr d Cm h k (i+1)))
      (fun i => (.pathT, .fPath (.var (.Xc k i)) (.var (.U k))))
      d j hj1 hjd
    simpa [hj'] using hs
  · rw [hmul, assemble_lbg_getElem N d Cm Dv h k (2*j) hk
      (by have := lbgInterval_length_ge N d k; omega)]
    rw [lbgInterval]
    exact shape_getElem_snd negInf3 zero3W
      (if k = N - 1 then [negInf3] else [])
      (fun _ => zero3W) (fun _ => negInf3) d j hj1 hjd
  · rw [hmul, assemble_ubg_getElem N d Cm Dv h k (2*j) hk
      (by have := ubgInterval_length_ge N d k; omega)]
    rw [ubgInterval]
    exact shape_getElem_snd zero3 zero3
      (if k = N - 1 then [zero3] else [])
      (fun _ => zero3) (fun _ => zero3) d j hj1 hjd
  · intro ρ Fo Fq i
    have hsum : ∑ r ∈ Finset.Icc 1 d, Cm r j * ρ (.Xc k (r-1)) i
        = ∑ r ∈ Finset.range d, Cm (r+1) j * ρ (.Xc k r) i := by
      rw [sum_Icc_shift d (fun r => Cm r j * ρ (.Xc k (r-1)) i)]
      apply Finset.sum_congr rfl
      intro r _
      simp
    rw [hsum]
    simp only [defectExpr, veval, veval_xpExpr]

/-- Witness for `c2_defect_constraint` at `N = 1`, `d = 1`, `k = 0`,
`j = 1`. -/
theorem c2_defect_constraint_witness :
    (0 < 1 ∧ 1 ≤ 1 ∧ 1 ≤ 1)
    ∧ ((assemble 1 1 (fun _ _ => 1) (fun _ => 1) 24).g[0 * (2*1+2)
          + (2*1 - 1)]? = some (.defectT, defectExpr 1 (fun _ _ => 1) 24 0 1)
      ∧ (assemble 1 1 (fun _ _ => 1) (fun _ => 1) 24).lbg[0 * (2*1+2)
          + (2*1 - 1)]? = some zero3W
      ∧ (assemble 1 1 (fun _ _ => 1) (fun _ => 1) 24).ubg[0 * (2*1+2)
          + (2*1 - 1)]? = some zero3
      ∧ (assemble 1 1 (fun _ _ => 1) (fun _ => 1) 24).g[0 * (2*1+2)
          + 2*1]? = some (.pathT, .fPath (.var (.Xc 0 0)) (.var (.U 0)))
      ∧ (assemble 1 1 (fun _ _ => 1) (fun _ => 1) 24).lbg[0 * (2*1+2)
          + 2*1]? = some negInf3
      ∧ (assemble 1 1 (fun _ _ => 1) (fun _ => 1) 24).ubg[0 * (2*1+2)
          + 2*1]? = some zero3
      ∧ ∀ (ρ : Var → ℕ → ℚ) (Fo Fq : (ℕ → ℚ) → (ℕ → ℚ) → ℕ → ℚ) (i : ℕ),
          veval ρ Fo Fq (defectExpr 1 (fun _ _ => 1) 24 0 1) i
            = 24 * Fo (ρ (.Xc 0 0)) (ρ (.U 0)) i
              - ((fun (_ : ℕ) (_ : ℕ) => (1:ℚ)) 0 1 * ρ (.X 0) i
                  + ∑ r ∈ Finset.Icc 1 1,
                      (fun (_ : ℕ) (_ : ℕ) => (1:ℚ)) r 1
                        * ρ (.Xc 0 (r-1)) i)) :=
  ⟨⟨by norm_num, by norm_num, by norm_num⟩,
    c2_defect_constraint 1 1 (fun _ _ => 1) (fun _ => 1) 24 0 1
      (by norm_num) (by norm_num) (by norm_num)⟩

/-- The last variable block introduced in interval `k` is `X_(k+1)`. -/
theorem wInterval_getElem_last (d k : ℕ) :
    (wInterval d k)[d + 1]? = some (.X (k+1)) := by
  simp only [wInterval, List.getElem?_cons_succ]
  rw [List.getElem?_append_right (by simp)]
  simp

/-- C3: for every interval `k < N`, the end state is accumulated as
`X_end = D[0]·X_k + Σ_(j=1..d) D[j]·Xc_(k,j)`, the next boundary state
variable `X_(k+1)` is introduced (as the last variable block of the
interval), and the equality `X_end − X_(k+1) = 0` is emitted with both
bounds zero at constraint position `k(2d+2) + 2d + 1`. -/
theorem c3_continuity_constraint (N d : ℕ) (Cm : ℕ → ℕ → ℚ) (Dv : ℕ → ℚ)
    (h : ℚ) (k : ℕ) (hk : k < N) :
    (assemble N d Cm Dv h).g[k * (2*d+2) + (2*d + 1)]?
      = some (.contT, .sub (xkEnd d Dv k) (.var (.X (k+1))))
    ∧ (assemble N d Cm Dv h).lbg[k * (2*d+2) + (2*d + 1)]? = some zero3W
    ∧ (assemble N d Cm Dv h).ubg[k * (2*d+2) + (2*d + 1)]? = some zero3
    ∧ (assemble N d Cm Dv h).w[(k * (d+2) + (d + 1)) + 1]? = some (.X (k+1))
    ∧ ∀ (ρ : Var → ℕ → ℚ) (Fo Fq : (ℕ → ℚ) → (ℕ → ℚ) → ℕ → ℚ) (i : ℕ),
        veval ρ Fo Fq (xkEnd d Dv k) i
          = Dv 0 * ρ (.X k) i
            + ∑ jj ∈ Finset.Icc 1 d, Dv jj * ρ (.Xc k (jj-1)) i := by
  have hmul : ∀ r : ℕ, k * (2*d+2) + r = (2*d+2) * k + r := by
    intro r
    ring
  refine ⟨?_, ?_, ?_, ?_, ?_⟩
  · rw [hmul, assemble_g_getElem N d Cm Dv h k (2*d + 1) hk
      (by have := gInterval_length_ge N d Cm Dv h k; omega)]
    rw [gInterval]
    exact shape_getElem_last _ _ _ _ _ d
  · rw [hmul, assemble_lbg_getElem N d Cm Dv h k (2*d + 1) hk
      (by have := lbgInterval_length_ge N d k; omega)]
    rw [lbgInterval]
    exact shape_getElem_last _ _ _ _ _ d
  · rw [hmul, assemble_ubg_getElem N d Cm Dv h k (2*d + 1) hk
      (by have := ubgInterval_length_ge N d k; omega)]
    rw [ubgInterval]
    exact shape_getElem_last _ _ _ _ _ d
  · have hmul' : k * (d+2) + (d + 1) = (d+2) * k + (d + 1) := by ring
    rw [hmul', assemble_w_getElem N d Cm Dv h k (d + 1) hk (by omega)]
    exact wInterval_getElem_last d k
  · intro ρ Fo Fq i
    have hsum : ∑ jj ∈ Finset.Icc 1 d, Dv jj * ρ (.Xc k (jj-1)) i
        = ∑ jj ∈ Finset.range d, Dv (jj+1) * ρ (.Xc k jj) i := by
      rw [sum_Icc_shift d (fun jj => Dv jj * ρ (.Xc k (jj-1)) i)]
      apply Finset.sum_congr rfl
      intro jj _
      simp
    rw [hsum]
    exact veval_xkEnd d Dv k ρ Fo Fq i

/-- Witness for `c3_continuity_constraint` at `N = 1`, `d = 1`, `k = 0`. -/
theorem c3_continuity_constraint_witness :
    0 < 1
    ∧ ((assemble 1 1 (fun _ _ => 1) (fun _ => 1) 24).g[0 * (2*1+2)
          + (2*1 + 1)]?
        = some (.contT, .sub (xkEnd 1 (fun _ => 1) 0) (.var (.X 1)))
      ∧ (assemble 1 1 (fun _ _ => 1) (fun _ => 1) 24).lbg[0 * (2*1+2)
          + (2*1 + 1)]? = some zero3W
      ∧ (assemble 1 1 (fun _ _ => 1) (fun _ => 1) 24).ubg[0 * (2*1+2)
          + (2*1 + 1)]? = some zero3
      ∧ (assemble 1 1 (fun _ _ => 1) (fun _ => 1) 24).w[(0 * (1+2)
          + (1 + 1)) + 1]? = some (.X 1)
      ∧ ∀ (ρ : Var → ℕ → ℚ) (Fo Fq : (ℕ → ℚ) → (ℕ → ℚ) → ℕ → ℚ) (i : ℕ),
          veval ρ Fo Fq (xkEnd 1 (fun _ => 1) 0) i
            = (fun (_ : ℕ) => (1:ℚ)) 0 * ρ (.X 0) i
              + ∑ jj ∈ Finset.Icc 1 1,
                  (fun (_ : ℕ) => (1:ℚ)) jj * ρ (.Xc 0 (jj-1)) i) :=
  ⟨by norm_num,
    c3_continuity_constraint 1 1 (fun _ _ => 1) (fun _ => 1) 24 0
      (by norm_num)⟩

/-! Path-constraint rows: placement, bounds, and emission order. -/

/-- Length of one interval's op trace. -/
theorem intervalOps_length (N d : ℕ) (Cm : ℕ → ℕ → ℚ) (Dv : ℕ → ℚ) (h : ℚ)
    (k : ℕ) :
    (intervalOps N d Cm Dv h k).length
      = 3 * d + 7 + if k = N - 1 then 1 else 0 := by
  simp only [intervalOps, List.length_append, List.length_cons,
    List.length_nil, collVarOps, defectOps, List.length_map,
    List.length_range, length_flatMap_two]
  split <;> (simp only [List.length_singleton, List.length_nil]; omega)

/-- Positional access into the full op trace: global index
`(3d+7)·k + r + 2` reads local index `r` of interval `k` (the `+2` skips
the two initial-condition ops). -/
theorem opsFor_getElem (N d : ℕ) (Cm : ℕ → ℕ → ℚ) (Dv : ℕ → ℚ) (h : ℚ)
    (k r : ℕ) (hk : k < N) (hr : r < (intervalOps N d Cm Dv h k).length) :
    (opsFor N d Cm Dv h)[(3*d+7) * k + r + 2]?
      = (intervalOps N d Cm Dv h k)[r]? := by
  rw [opsFor]
  rw [List.getElem?_append_right (by simp [initOps])]
  have hlen : initOps.length = 2 := rfl
  rw [hlen]
  have hidx : (3*d+7) * k + r + 2 - 2 = (3*d+7) * k + r := by omega
  rw [hidx]
  apply flatMap_range_getElem (intervalOps N d Cm Dv h) (3*d+7) k N r hk _ hr
  intro i hi
  rw [intervalOps_length]
  have hne : ¬(i = N - 1) := by omega
  simp [hne]

/-- The third op of every interval is the operational path constraint at
`(X_k, U_k)`. -/
theorem intervalOps_getElem_path (N d : ℕ) (Cm : ℕ → ℕ → ℚ) (Dv : ℕ → ℚ)
    (h : ℚ) (k : ℕ) :
    (intervalOps N d Cm Dv h k)[2]?
      = some (.aconstr .pathT (.fPath (.var (.X k)) (.var (.U k)))
          negInf3 zero3) := by
  simp [intervalOps]

/-- The op at local index `3 + j` of an interval is the append of the
collocation variable `Xc k j`. -/
theorem intervalOps_getElem_collVar (N d : ℕ) (Cm : ℕ → ℕ → ℚ) (Dv : ℕ → ℚ)
    (h : ℚ) (k j : ℕ) (hj : j < d) :
    (intervalOps N d Cm Dv h k)[3 + j]?
      = some (.avar (.Xc k j) [0, 0, 0] [100, 100000, 100]
          [6/5, 800, 2]) := by
  have hidx : 3 + j = j + 1 + 1 + 1 := by omega
  have hlen : j < (collVarOps d k).length := by
    simpa [collVarOps] using hj
  rw [hidx]
  simp only [intervalOps, List.cons_append, List.append_assoc,
    List.nil_append, List.getElem?_cons_succ]
  rw [List.getElem?_append_left hlen]
  simp [collVarOps, hj]

/-- C7: for every interval `k < N`, a path-constraint row at `(X_k, U_k)`
with bounds `(-∞, 0]` is emitted at the very start of the interval's
constraint blocks, and the op appending it precedes every op introducing a
collocation variable of interval `k`; on the final interval only, one extra
path-constraint row at `(X_N, U_(N-1))` with the same bounds closes the
constraint set. -/
theorem c7_path_rows (N d : ℕ) (Cm : ℕ → ℕ → ℚ) (Dv : ℕ → ℚ) (h : ℚ)
    (k : ℕ) (hk : k < N) :
    (assemble N d Cm Dv h).g[k * (2*d+2)]?
      = some (.pathT, .fPath (.var (.X k)) (.var (.U k)))
    ∧ (assemble N d Cm Dv h).lbg[k * (2*d+2)]? = some negInf3
    ∧ (assemble N d Cm Dv h).ubg[k * (2*d+2)]? = some zero3
    ∧ (∀ j, j < d →
        (opsFor N d Cm Dv h)[(3*d+7) * k + 2 + 2]?
          = some (.aconstr .pathT (.fPath (.var (.X k)) (.var (.U k)))
              negInf3 zero3)
        ∧ (opsFor N d Cm Dv h)[(3*d+7) * k + (3 + j) + 2]?
          = some (.avar (.Xc k j) [0, 0, 0] [100, 100000, 100] [6/5, 800, 2])
        ∧ (3*d+7) * k + 2 + 2 < (3*d+7) * k + (3 + j) + 2)
    ∧ (assemble N d Cm Dv h).g.length = N * (2*d+2) + 1
    ∧ (assemble N d Cm Dv h).g[N * (2*d+2)]?
      = some (.pathT, .fPath (.var (.X N)) (.var (.U (N-1))))
    ∧ (assemble N d Cm Dv h).lbg[N * (2*d+2)]? = some negInf3
    ∧ (assemble N d Cm Dv h).ubg[N * (2*d+2)]? = some zero3 := by
  have hN : 1 ≤ N := by omega
  obtain ⟨n, rfl⟩ : ∃ n, N = n + 1 := ⟨N - 1, by omega⟩
  have hmulz : k * (2*d+2) = (2*d+2) * k + 0 := by ring
  have hmulf : (n+1) * (2*d+2) = (2*d+2) * n + (2*d+2) := by ring
  have hrf : 2*d+2 < (gInterval (n+1) d Cm Dv h n).length := by
    rw [gInterval_length]
    simp
  have hrfl : 2*d+2 < (lbgInterval (n+1) d n).length := by
    rw [lbgInterval_length]
    simp
  have hrfu : 2*d+2 < (ubgInterval (n+1) d n).length := by
    rw [ubgInterval_length]
    simp
  refine ⟨?_, ?_, ?_, ?_, ?_, ?_, ?_, ?_⟩
  · rw [hmulz, assemble_g_getElem (n+1) d Cm Dv h k 0 hk
      (by have := gInterval_length_ge (n+1) d Cm Dv h k; omega)]
    rw [gInterval]
    exact shape_getElem_zero _ _ _ _ _ d
  · rw [hmulz, assemble_lbg_getElem (n+1) d Cm Dv h k 0 hk
      (by have := lbgInterval_length_ge (n+1) d k; omega)]
    rw [lbgInterval]
    exact shape_getElem_zero _ _ _ _ _ d
  · rw [hmulz, assemble_ubg_getElem (n+1) d Cm Dv h k 0 hk
      (by have := ubgInterval_length_ge (n+1) d k; omega)]
    rw [ubgInterval]
    exact shape_getElem_zero _ _ _ _ _ d
  · intro j hj
    refine ⟨?_, ?_, by omega⟩
    · rw [opsFor_getElem (n+1) d Cm Dv h k 2 hk
        (by rw [intervalOps_length]; split <;> omega)]
      exact intervalOps_getElem_path (n+1) d Cm Dv h k
    · rw [opsFor_getElem (n+1) d Cm Dv h k (3 + j) hk
        (by rw [intervalOps_length]; split <;> omega)]
      exact intervalOps_getElem_collVar (n+1) d Cm Dv h k j hj
  · exact assemble_g_length (n+1) d Cm Dv h hN
  · rw [hmulf, assemble_g_getElem (n+1) d Cm Dv h n (2*d+2)
      (by omega) hrf]
    rw [gInterval]
    rw [shape_getElem_extra]
    simp
  · rw [hmulf, assemble_lbg_getElem (n+1) d Cm Dv h n (2*d+2)
      (by omega) hrfl]
    rw [lbgInterval]
    rw [shape_getElem_extra]
    simp
  · rw [hmulf, assemble_ubg_getElem (n+1) d Cm Dv h n (2*d+2)
      (by omega) hrfu]
    rw [ubgInterval]
    rw [shape_getElem_extra]
    simp

/-- Witness for `c7_path_rows` at `N = 1`, `d = 1`, `k = 0`. -/
theorem c7_path_rows_witness :
    0 < 1
    ∧ ((assemble 1 1 (fun _ _ => 1) (fun _ => 1) 24).g[0 * (2*1+2)]?
        = some (.pathT, .fPath (.var (.X 0)) (.var (.U 0)))
      ∧ (assemble 1 1 (fun _ _ => 1) (fun _ => 1) 24).lbg[0 * (2*1+2)]?
        = some negInf3
      ∧ (assemble 1 1 (fun _ _ => 1) (fun _ => 1) 24).ubg[0 * (2*1+2)]?
        = some zero3
      ∧ (∀ j, j < 1 →
          (opsFor 1 1 (fun _ _ => 1) (fun _ => 1) 24)[(3*1+7) * 0 + 2 + 2]?
            = some (.aconstr .pathT (.fPath (.var (.X 0)) (.var (.U 0)))
                negInf3 zero3)
          ∧ (opsFor 1 1 (fun _ _ => 1)
              (fun _ => 1) 24)[(3*1+7) * 0 + (3 + j) + 2]?
            = some (.avar (.Xc 0 j) [0, 0, 0] [100, 100000, 100]
                [6/5, 800, 2])
          ∧ (3*1+7) * 0 + 2 + 2 < (3*1+7) * 0 + (3 + j) + 2)
      ∧ (assemble 1 1 (fun _ _ => 1) (fun _ => 1) 24).g.length
        = 1 * (2*1+2) + 1
      ∧ (assemble 1 1 (fun _ _ => 1) (fun _ => 1) 24).g[1 * (2*1+2)]?
        = some (.pathT, .fPath (.var (.X 1)) (.var (.U (1-1))))
      ∧ (assemble 1 1 (fun _ _ => 1) (fun _ => 1) 24).lbg[1 * (2*1+2)]?
        = some negInf3
      ∧ (assemble 1 1 (fun _ _ => 1) (fun _ => 1) 24).ubg[1 * (2*1+2)]?
        = some zero3) :=
  ⟨by norm_num,
    c7_path_rows 1 1 (fun _ _ => 1) (fun _ => 1) 24 0 (by norm_num)⟩

/-! The objective accumulator. -/

/-- Value of the objective after the first `m` interval updates, for
`m ≤ N - 1`: interval `0` contributes nothing and each interval
`1 ≤ k < m` contributes minus its control-rate penalty. -/
theorem sval_jfold (N : ℕ) (ρ : Var → ℕ → ℚ) :
    ∀ m, m ≤ N - 1 →
      sval ρ ((List.range m).foldl (fun J k => jUpdate N k J) (.lit 0))
        = -∑ k ∈ Finset.Ico 1 m, penVal ρ k := by
  intro m
  induction m with
  | zero => intro _; simp [sval]
  | succ m ih =>
    intro hm
    rw [List.range_succ, List.foldl_append, List.foldl_cons, List.foldl_nil]
    have hne : ¬(m = N - 1) := by omega
    by_cases hz : m = 0
    · subst hz
      simp [jUpdate, hne, sval]
    · have h1 : 0 < m := by omega
      have hzn : ¬(m = 0) := by omega
      have hstep : sval ρ (jUpdate N m
          ((List.range m).foldl (fun J k => jUpdate N k J) (.lit 0)))
          = sval ρ ((List.range m).foldl (fun J k => jUpdate N k J) (.lit 0))
            - penVal ρ m := by
        simp [jUpdate, hne, h1, rateSq0, rateSq1, prevU0, prevU1, hzn, sval,
          penVal]
        ring
      rw [hstep, ih (by omega), Finset.sum_Ico_succ_top (by omega)]
      ring

/-- C4: for `N ≥ 2`, the assembled objective equals the terminal reward
`4·X_N[2] − 10⁻³·X_N[1]` added on the final interval, minus the control-rate
penalties `((U_k[0]-U_(k-1)[0])·4/10)² + ((U_k[1]-U_(k-1)[1])·9/1000)²` of
every interval `k ≥ 1`; interval `0` contributes nothing. -/
theorem c4_objective (N d : ℕ) (Cm : ℕ → ℕ → ℚ) (Dv : ℕ → ℚ) (h : ℚ)
    (hN : 2 ≤ N) (ρ : Var → ℕ → ℚ) :
    sval ρ ((assemble N d Cm Dv h).J)
      = 4 * ρ (.X N) 2 - (1/1000) * ρ (.X N) 1
        - ∑ k ∈ Finset.Icc 1 (N-1), penVal ρ k := by
  rw [assemble_J]
  obtain ⟨n, rfl⟩ : ∃ n, N = n + 1 := ⟨N - 1, by omega⟩
  rw [List.range_succ, List.foldl_append, List.foldl_cons, List.foldl_nil]
  have h1 : 1 ≤ n := by omega
  have hzn : ¬(n = 0) := by omega
  have hbranch : ∀ J, jUpdate (n+1) n J
      = .sub (.sub (.sub (.add J (.mul (.lit 4) (.comp (.X (n+1)) 2)))
          (.mul (.lit (1/1000)) (.comp (.X (n+1)) 1))) (rateSq0 n))
        (rateSq1 n) := by
    intro J
    simp [jUpdate]
  rw [hbranch]
  have hfold := sval_jfold (n+1) ρ n (by omega)
  have hsum : ∑ k ∈ Finset.Icc 1 (n+1-1), penVal ρ k
      = ∑ k ∈ Finset.Ico 1 n, penVal ρ k + penVal ρ n := by
    have hn1 : n + 1 - 1 = n := rfl
    rw [hn1, ← Nat.Ico_succ_right, Finset.sum_Ico_succ_top h1]
  rw [hsum]
  simp only [sval, hfold, rateSq0, rateSq1, prevU0, prevU1, hzn, if_false,
    ite_false, penVal]
  ring

/-- Witness for `c4_objective` at `N = 2`, `d = 1`, with the all-ones
valuation. -/
theorem c4_objective_witness :
    2 ≤ 2
    ∧ sval (fun _ _ => 1) ((assemble 2 1 (fun _ _ => 1) (fun _ => 1) 24).J)
      = 4 * (fun (_ : Var) (_ : ℕ) => (1:ℚ)) (.X 2) 2
        - (1/1000) * (fun (_ : Var) (_ : ℕ) => (1:ℚ)) (.X 2) 1
        - ∑ k ∈ Finset.Icc 1 (2-1), penVal (fun _ _ => 1) k :=
  ⟨by norm_num,
    c4_objective 2 1 (fun _ _ => 1) (fun _ => 1) 24 (by norm_num)
      (fun _ _ => 1)⟩

/-! The trajectory extractor. -/

/-- Positionally reading a block out of the concatenated decision vector
returns exactly that block's values, for any block present in the layout. -/
theorem slice_flatMap (val : Var → List ℚ)
    (hval : ∀ v, (val v).length = dimOf v) :
    ∀ (wl : List Var) (v : Var), v ∈ wl →
      slice wl (wl.flatMap val) v = val v := by
  intro wl
  induction wl with
  | nil =>
    intro v hv
    simp at hv
  | cons x l ih =>
    intro v hv
    by_cases hx : x = v
    · subst hx
      simp only [slice, offsetIn, if_pos rfl, List.flatMap_cons,
        List.drop_zero]
      exact List.take_left' (hval x)
    · have hv' : v ∈ l := by
        rcases List.mem_cons.mp hv with hc | hc
        · exact absurd hc.symm hx
        · exact hc
      simp only [slice, offsetIn, if_neg hx, List.flatMap_cons]
      rw [← List.drop_drop, List.drop_left' (hval x)]
      exact ih v hv'

/-- Every boundary state `X_k`, `k ≤ N`, occurs in the decision layout. -/
theorem memX_layout (N d k : ℕ) (hk : k ≤ N) :
    Var.X k ∈ Var.X 0 :: (List.range N).flatMap (wInterval d) := by
  cases k with
  | zero => exact List.mem_cons_self _ _
  | succ k =>
    apply List.mem_cons_of_mem
    rw [List.mem_flatMap]
    refine ⟨k, List.mem_range.mpr (by omega), ?_⟩
    simp [wInterval]

/-- Every control `U_k`, `k < N`, occurs in the decision layout. -/
theorem memU_layout (N d k : ℕ) (hk : k < N) :
    Var.U k ∈ Var.X 0 :: (List.range N).flatMap (wInterval d) := by
  apply List.mem_cons_of_mem
  rw [List.mem_flatMap]
  refine ⟨k, List.mem_range.mpr hk, ?_⟩
  simp [wInterval]

/-- C5: the decision vector is the ordered concatenation
`X_0, U_0, Xc_(0,1..d), X_1, …, X_N`, and the trajectory extractor, applied
to any decision vector of this layout, returns the boundary states
`X_0..X_N` as an `nd × (N+1)` column list and the controls `U_0..U_(N-1)`
as an `nu × N` column list, in original order. -/
theorem c5_layout_and_extraction (N d : ℕ) (Cm : ℕ → ℕ → ℚ) (Dv : ℕ → ℚ)
    (h : ℚ) (val : Var → List ℚ) (hval : ∀ v, (val v).length = dimOf v) :
    (assemble N d Cm Dv h).w
      = .X 0 :: (List.range N).flatMap
          (fun k => .U k :: ((List.range d).map (.Xc k) ++ [.X (k+1)]))
    ∧ trajX (assemble N d Cm Dv h) ((assemble N d Cm Dv h).w.flatMap val)
      = (List.range (N+1)).map (fun k => val (.X k))
    ∧ trajU (assemble N d Cm Dv h) ((assemble N d Cm Dv h).w.flatMap val)
      = (List.range N).map (fun k => val (.U k))
    ∧ (trajX (assemble N d Cm Dv h)
        ((assemble N d Cm Dv h).w.flatMap val)).length = N + 1
    ∧ (trajU (assemble N d Cm Dv h)
        ((assemble N d Cm Dv h).w.flatMap val)).length = N
    ∧ (∀ c ∈ trajX (assemble N d Cm Dv h)
        ((assemble N d Cm Dv h).w.flatMap val), c.length = 3)
    ∧ (∀ c ∈ trajU (assemble N d Cm Dv h)
        ((assemble N d Cm Dv h).w.flatMap val), c.length = 2) := by
  have hX : trajX (assemble N d Cm Dv h)
      ((assemble N d Cm Dv h).w.flatMap val)
      = (List.range (N+1)).map (fun k => val (.X k)) := by
    rw [trajX, assemble_xplot, assemble_w, List.map_map]
    apply List.map_congr_left
    intro k hk
    have hk' : k < N + 1 := List.mem_range.mp hk
    have hs := slice_flatMap val hval
      (Var.X 0 :: (List.range N).flatMap (wInterval d)) (.X k)
      (memX_layout N d k (by omega))
    simpa using hs
  have hU : trajU (assemble N d Cm Dv h)
      ((assemble N d Cm Dv h).w.flatMap val)
      = (List.range N).map (fun k => val (.U k)) := by
    rw [trajU, assemble_uplot, assemble_w, List.map_map]
    apply List.map_congr_left
    intro k hk
    have hk' : k < N := List.mem_range.mp hk
    have hs := slice_flatMap val hval
      (Var.X 0 :: (List.range N).flatMap (wInterval d)) (.U k)
      (memU_layout N d k hk')
    simpa using hs
  refine ⟨?_, hX, hU, ?_, ?_, ?_, ?_⟩
  · rw [assemble_w]
    rfl
  · rw [hX]
    simp
  · rw [hU]
    simp
  · rw [hX]
    intro c hc
    rcases List.mem_map.mp hc with ⟨k, _, rfl⟩
    rw [hval (.X k)]
    rfl
  · rw [hU]
    intro c hc
    rcases List.mem_map.mp hc with ⟨k, _, rfl⟩
    rw [hval (.U k)]
    rfl

/-- Witness for `c5_layout_and_extraction` at `N = 1`, `d = 1`, with the
all-ones block valuation. -/
theorem c5_layout_and_extraction_witness :
    (∀ v, ((fun u => List.replicate (dimOf u) (1:ℚ)) v).length = dimOf v)
    ∧ ((assemble 1 1 (fun _ _ => 1) (fun _ => 1) 24).w
        = .X 0 :: (List.range 1).flatMap
            (fun k => .U k :: ((List.range 1).map (.Xc k) ++ [.X (k+1)]))
      ∧ trajX (assemble 1 1 (fun _ _ => 1) (fun _ => 1) 24)
          ((assemble 1 1 (fun _ _ => 1) (fun _ => 1) 24).w.flatMap
            (fun u => List.replicate (dimOf u) 1))
        = (List.range (1+1)).map
            (fun k => (fun u => List.replicate (dimOf u) (1:ℚ)) (.X k))
      ∧ trajU (assemble 1 1 (fun _ _ => 1) (fun _ => 1) 24)
          ((assemble 1 1 (fun _ _ => 1) (fun _ => 1) 24).w.flatMap
            (fun u => List.replicate (dimOf u) 1))
        = (List.range 1).map
            (fun k => (fun u => List.replicate (dimOf u) (1:ℚ)) (.U k))
      ∧ (trajX (assemble 1 1 (fun _ _ => 1) (fun _ => 1) 24)
          ((assemble 1 1 (fun _ _ => 1) (fun _ => 1) 24).w.flatMap
            (fun u => List.replicate (dimOf u) 1))).length = 1 + 1
      ∧ (trajU (assemble 1 1 (fun _ _ => 1) (fun _ => 1) 24)
          ((assemble 1 1 (fun _ _ => 1) (fun _ => 1) 24).w.flatMap
            (fun u => List.replicate (dimOf u) 1))).length = 1
      ∧ (∀ c ∈ trajX (assemble 1 1 (fun _ _ => 1) (fun _ => 1) 24)
          ((assemble 1 1 (fun _ _ => 1) (fun _ => 1) 24).w.flatMap
            (fun u => List.replicate (dimOf u) 1)), c.length = 3)
      ∧ (∀ c ∈ trajU (assemble 1 1 (fun _ _ => 1) (fun _ => 1) 24)
          ((assemble 1 1 (fun _ _ => 1) (fun _ => 1) 24).w.flatMap
            (fun u => List.replicate (dimOf u) 1)), c.length = 2)) :=
  ⟨fun v => by simp,
    c5_layout_and_extraction 1 1 (fun _ _ => 1) (fun _ => 1) 24
      (fun u => List.replicate (dimOf u) 1) (fun v => by simp)⟩

/-! The pinned initial state. -/

/-- C6: the initial state `X_0` is a decision variable whose lower-bound
block and upper-bound block are the same fixed vector `[0.27, 765, 0]`, and
every decision vector satisfying the assembled variable bounds decodes to a
state trajectory whose first column is exactly that vector. -/
theorem c6_pinned_initial_state (N d : ℕ) (Cm : ℕ → ℕ → ℚ) (Dv : ℕ → ℚ)
    (h : ℚ) (flat : List ℚ)
    (hlen : flat.length = (assemble N d Cm Dv h).lbw.flatten.length)
    (hlb : ∀ i, i < flat.length →
      (assemble N d Cm Dv h).lbw.flatten.getD i 0 ≤ flat.getD i 0)
    (hub : ∀ i, i < flat.length →
      flat.getD i 0 ≤ (assemble N d Cm Dv h).ubw.flatten.getD i 0) :
    (assemble N d Cm Dv h).lbw[0]? = some [27/100, 765, 0]
    ∧ (assemble N d Cm Dv h).ubw[0]? = some [27/100, 765, 0]
    ∧ (trajX (assemble N d Cm Dv h) flat)[0]? = some [27/100, 765, 0] := by
  have h3 : 3 ≤ flat.length := by
    rw [hlen, assemble_lbw]
    simp
  rcases flat with _ | ⟨a, _ | ⟨b, _ | ⟨c, t⟩⟩⟩
  · simp at h3
  · simp at h3
  · simp at h3
  · have hfl : ∀ q : List ℚ,
        ((27/100 : ℚ) :: (765 : ℚ) :: (0 : ℚ) :: q).getD 0 0 = 27/100
        ∧ ((27/100 : ℚ) :: (765 : ℚ) :: (0 : ℚ) :: q).getD 1 0 = 765
        ∧ ((27/100 : ℚ) :: (765 : ℚ) :: (0 : ℚ) :: q).getD 2 0 = 0 := by
      intro q
      refine ⟨rfl, rfl, rfl⟩
    have hlbfl : (assemble N d Cm Dv h).lbw.flatten
        = 27/100 :: 765 :: 0 ::
          ((List.range N).flatMap (fun _ => lbwInterval d)).flatten := by
      rw [assemble_lbw]
      simp
    have hubfl : (assemble N d Cm Dv h).ubw.flatten
        = 27/100 :: 765 :: 0 ::
          ((List.range N).flatMap (fun _ => ubwInterval d)).flatten := by
      rw [assemble_ubw]
      simp
    have hlen' : 3 ≤ (a :: b :: c :: t).length := h3
    have ha : a = 27/100 := by
      have h1 := hlb 0 (by simp)
      have h2 := hub 0 (by simp)
      rw [hlbfl] at h1
      rw [hubfl] at h2
      rcases hfl (((List.range N).flatMap (fun _ => lbwInterval d)).flatten)
        with ⟨hb1, _, _⟩
      rcases hfl (((List.range N).flatMap (fun _ => ubwInterval d)).flatten)
        with ⟨hb2, _, _⟩
      rw [hb1] at h1
      rw [hb2] at h2
      exact le_antisymm (by simpa using h2) (by simpa using h1)
    have hb : b = 765 := by
      have h1 := hlb 1 (by simp)
      have h2 := hub 1 (by simp)
      rw [hlbfl] at h1
      rw [hubfl] at h2
      rcases hfl (((List.range N).flatMap (fun _ => lbwInterval d)).flatten)
        with ⟨_, hb1, _⟩
      rcases hfl (((List.range N).flatMap (fun _ => ubwInterval d)).flatten)
        with ⟨_, hb2, _⟩
      rw [hb1] at h1
      rw [hb2] at h2
      exact le_antisymm (by simpa using h2) (by simpa using h1)
    have hc : c = 0 := by
      have h1 := hlb 2 (by simp)
      have h2 := hub 2 (by simp)
      rw [hlbfl] at h1
      rw [hubfl] at h2
      rcases hfl (((List.range N).flatMap (fun _ => lbwInterval d)).flatten)
        with ⟨_, _, hb1⟩
      rcases hfl (((List.range N).flatMap (fun _ => ubwInterval d)).flatten)
        with ⟨_, _, hb2⟩
      rw [hb1] at h1
      rw [hb2] at h2
      exact le_antisymm (by simpa using h2) (by simpa using h1)
    subst ha hb hc
    refine ⟨?_, ?_, ?_⟩
    · rw [assemble_lbw]
      simp
    · rw [assemble_ubw]
      simp
    · rw [trajX, assemble_xplot, assemble_w]
      rw [List.range_succ_eq_map]
      simp only [List.map_cons, List.getElem?_cons_zero, Option.some.injEq]
      simp [slice, offsetIn, dimOf]

/-- Witness for `c6_pinned_initial_state` at `N = 1`, `d = 1`, with the
assembled initial guess as the decision vector (it lies within the
bounds). -/
theorem c6_pinned_initial_state_witness :
    (([27/100, 765, 0, 30, 1000, 6/5, 800, 2, 6/5, 800, 2] : List ℚ).length
        = (assemble 1 1 (fun _ _ => 1)
            (fun _ => 1) 24).lbw.flatten.length
      ∧ (∀ i, i < ([27/100, 765, 0, 30, 1000, 6/5, 800, 2, 6/5, 800, 2]
            : List ℚ).length →
          (assemble 1 1 (fun _ _ => 1) (fun _ => 1) 24).lbw.flatten.getD i 0
            ≤ ([27/100, 765, 0, 30, 1000, 6/5, 800, 2, 6/5, 800, 2]
                : List ℚ).getD i 0)
      ∧ (∀ i, i < ([27/100, 765, 0, 30, 1000, 6/5, 800, 2, 6/5, 800, 2]
            : List ℚ).length →
          ([27/100, 765, 0, 30, 1000, 6/5, 800, 2, 6/5, 800, 2]
              : List ℚ).getD i 0
            ≤ (assemble 1 1 (fun _ _ => 1)
                (fun _ => 1) 24).ubw.flatten.getD i 0))
    ∧ ((assemble 1 1 (fun _ _ => 1) (fun _ => 1) 24).lbw[0]?
        = some [27/100, 765, 0]
      ∧ (assemble 1 1 (fun _ _ => 1) (fun _ => 1) 24).ubw[0]?
        = some [27/100, 765, 0]
      ∧ (trajX (assemble 1 1 (fun _ _ => 1) (fun _ => 1) 24)
          [27/100, 765, 0, 30, 1000, 6/5, 800, 2, 6/5, 800, 2])[0]?
        = some [27/100, 765, 0]) := by
  have he1 : (assemble 1 1 (fun _ _ => 1) (fun _ => 1) 24).lbw.flatten
      = [27/100, 765, 0, 1/10, 100, 0, 0, 0, 0, 0, 0] := rfl
  have he2 : (assemble 1 1 (fun _ _ => 1) (fun _ => 1) 24).ubw.flatten
      = [27/100, 765, 0, 100, 1000, 100, 100000, 100, 100, 100000, 100] :=
    rfl
  have hlen : ([27/100, 765, 0, 30, 1000, 6/5, 800, 2, 6/5, 800, 2]
      : List ℚ).length
      = (assemble 1 1 (fun _ _ => 1) (fun _ => 1) 24).lbw.flatten.length :=
    rfl
  have hlb : ∀ i, i < ([27/100, 765, 0, 30, 1000, 6/5, 800, 2, 6/5, 800, 2]
      : List ℚ).length →
      (assemble 1 1 (fun _ _ => 1) (fun _ => 1) 24).lbw.flatten.getD i 0
        ≤ ([27/100, 765, 0, 30, 1000, 6/5, 800, 2, 6/5, 800, 2]
            : List ℚ).getD i 0 := by
    intro i hi
    rw [he1]
    simp only [List.length_cons, List.length_nil] at hi
    interval_cases i <;> norm_num
  have hub : ∀ i, i < ([27/100, 765, 0, 30, 1000, 6/5, 800, 2, 6/5, 800, 2]
      : List ℚ).length →
      ([27/100, 765, 0, 30, 1000, 6/5, 800, 2, 6/5, 800, 2]
          : List ℚ).getD i 0
        ≤ (assemble 1 1 (fun _ _ => 1)
            (fun _ => 1) 24).ubw.flatten.getD i 0 := by
    intro i hi
    rw [he2]
    simp only [List.length_cons, List.length_nil] at hi
    interval_cases i <;> norm_num
  exact ⟨⟨hlen, hlb, hub⟩,
    c6_pinned_initial_state 1 1 (fun _ _ => 1) (fun _ => 1) 24
      [27/100, 765, 0, 30, 1000, 6/5, 800, 2, 6/5, 800, 2]
      hlen hlb hub⟩

/-! Positional alignment of bounds, guesses, variables and constraints. -/

/-- The accumulated end state is a width-3 expression. -/
theorem vdim_xkEnd (d : ℕ) (Dv : ℕ → ℚ) (k : ℕ) : vdim (xkEnd d Dv k) = 3 := by
  induction d with
  | zero => rfl
  | succ d ih =>
    have hstep : xkEnd (d+1) Dv k
        = .add (xkEnd d Dv k) (.smul (Dv (d+1)) (.var (.Xc k d))) := by
      simp [xkEnd, List.range_succ]
    rw [hstep]
    exact ih

/-- A width-matched append step preserves alignment. -/
theorem applyOp_aligned (s : NLPState) (op : Op) (hop : goodOp op)
    (hs : aligned s) : aligned (applyOp s op) := by
  obtain ⟨a1, a2, a3, a4, a5⟩ := hs
  cases op with
  | avar v lb ub g0 =>
    obtain ⟨h1, h2, h3⟩ := hop
    refine ⟨?_, ?_, ?_, ?_, ?_⟩ <;>
      simp [applyOp, aligned, wScalarLen, gScalarLen, a1, a2, a3, a4, a5,
        h1, h2, h3]
  | aconstr t e lb ub =>
    obtain ⟨h1, h2⟩ := hop
    refine ⟨?_, ?_, ?_, ?_, ?_⟩ <;>
      simp [applyOp, aligned, wScalarLen, gScalarLen, a1, a2, a3, a4, a5,
        h1, h2]
  | axplot v =>
    exact ⟨a1, a2, a3, a4, a5⟩
  | auplot v =>
    exact ⟨a1, a2, a3, a4, a5⟩
  | aobj n k =>
    exact ⟨a1, a2, a3, a4, a5⟩

/-- Every op emitted by the transcription trace is width-matched. -/
theorem goodOp_opsFor (N d : ℕ) (Cm : ℕ → ℕ → ℚ) (Dv : ℕ → ℚ) (h : ℚ) :
    ∀ op ∈ opsFor N d Cm Dv h, goodOp op := by
  intro op hop
  simp only [opsFor, initOps, intervalOps, collVarOps, defectOps,
    List.mem_append, List.mem_cons, List.mem_flatMap, List.mem_map,
    List.mem_range, List.not_mem_nil, or_false] at hop
  rcases hop with (rfl | rfl)
    | ⟨k, -, (((((rfl | rfl | rfl) | ⟨i, -, rfl⟩) | ⟨i, -, rfl | rfl⟩)
        | (rfl | rfl | rfl)) | hite) | rfl⟩
  · exact ⟨rfl, rfl, rfl⟩
  · trivial
  · exact ⟨rfl, rfl, rfl⟩
  · trivial
  · exact ⟨rfl, rfl⟩
  · exact ⟨rfl, rfl, rfl⟩
  · exact ⟨rfl, rfl⟩
  · exact ⟨rfl, rfl⟩
  · exact ⟨rfl, rfl, rfl⟩
  · trivial
  · refine ⟨?_, ?_⟩ <;> simp [zero3W, zero3, vdim, vdim_xkEnd]
  · split at hite
    · simp only [List.mem_singleton] at hite
      subst hite
      exact ⟨rfl, rfl⟩
    · simp at hite
  · trivial

/-- Replaying any width-matched trace from an aligned state stays
aligned. -/
theorem foldl_aligned (l : List Op) : ∀ s : NLPState,
    (∀ op ∈ l, goodOp op) → aligned s → aligned (l.foldl applyOp s) := by
  induction l with
  | nil =>
    intro s _ hs
    exact hs
  | cons op l ih =>
    intro s hgood hs
    rw [List.foldl_cons]
    exact ih (applyOp s op)
      (fun o ho => hgood o (List.mem_cons_of_mem op ho))
      (applyOp_aligned s op (hgood op (List.mem_cons_self op l)) hs)

/-- C10: after any prefix of the assembly trace — that is, after every
variable or constraint append — the total scalar lengths of `lbw`, `ubw`
and `w0` each equal that of `w`, and those of `lbg` and `ubg` each equal
that of `g`; the concatenated arrays handed to the solver are therefore
positionally aligned. -/
theorem c10_positional_alignment (N d : ℕ) (Cm : ℕ → ℕ → ℚ) (Dv : ℕ → ℚ)
    (h : ℚ) (p : ℕ) :
    aligned (((opsFor N d Cm Dv h).take p).foldl applyOp initState) := by
  apply foldl_aligned
  · intro op hop
    exact goodOp_opsFor N d Cm Dv h op (List.take_subset p _ hop)
  · exact ⟨rfl, rfl, rfl, rfl, rfl⟩

/-! The collocation continuity coefficients. -/

/-- C8: for every degree `d ≥ 1` and admissible node set (`d + 1` pairwise
distinct nodes with `nodes[0] = 0`), the continuity coefficient vector `D`
computed by the basis generator satisfies `Σ_j D[j] = 1` exactly. -/
theorem c8_partition_of_unity (d : ℕ) (nodes : List ℚ)
    (hlen : nodes.length = d + 1) (hd : 1 ≤ d) (h0 : nodes.getD 0 0 = 0)
    (hinj : ∀ a, a < d + 1 → ∀ b, b < d + 1 → a ≠ b →
      nodes.getD a 0 ≠ nodes.getD b 0) :
    ∑ j ∈ Finset.range (d + 1), srcD nodes j = 1 := by
  have hd' := hd
  have h0' := h0
  have hvinj : Set.InjOn (fun i => nodes.getD i 0)
      ↑(Finset.range (d+1)) := by
    intro a ha b hb hab
    by_contra hne
    have ha' : a < d + 1 := by simpa using ha
    have hb' : b < d + 1 := by simpa using hb
    exact hinj a ha' b hb' hne hab
  have hsum := Lagrange.sum_basis hvinj ⟨0, Finset.mem_range.mpr (by omega)⟩
  have hev := congrArg (Polynomial.eval 1) hsum
  rw [Polynomial.eval_finset_sum, Polynomial.eval_one] at hev
  calc ∑ j ∈ Finset.range (d + 1), srcD nodes j
      = ∑ j ∈ Finset.range (d + 1), Polynomial.eval 1
          (Lagrange.basis (Finset.range (d+1)) (fun i => nodes.getD i 0) j)
        := by
        apply Finset.sum_congr rfl
        intro j _
        rw [srcD_eq_prod, hlen]
        exact (lagrangeBasis_eval_one (d+1) (fun i => nodes.getD i 0) j).symm
    _ = 1 := hev

/-- Witness for `c8_partition_of_unity` at `d = 1` with nodes `[0, 1]`. -/
theorem c8_partition_of_unity_witness :
    (([0, 1] : List ℚ).length = 1 + 1 ∧ 1 ≤ 1
      ∧ ([0, 1] : List ℚ).getD 0 0 = 0
      ∧ (∀ a, a < 1 + 1 → ∀ b, b < 1 + 1 → a ≠ b →
          ([0, 1] : List ℚ).getD a 0 ≠ ([0, 1] : List ℚ).getD b 0))
    ∧ ∑ j ∈ Finset.range (1 + 1), srcD [0, 1] j = 1 := by
  have hinj : ∀ a, a < 1 + 1 → ∀ b, b < 1 + 1 → a ≠ b →
      ([0, 1] : List ℚ).getD a 0 ≠ ([0, 1] : List ℚ).getD b 0 := by
    intro a ha b hb hab
    interval_cases a <;> interval_cases b <;> first
      | exact absurd rfl hab
      | norm_num
  exact ⟨⟨rfl, le_refl 1, rfl, hinj⟩,
    c8_partition_of_unity 1 [0, 1] rfl (le_refl 1) rfl hinj⟩

/-- C9 evaluation: the basis generator performs no duplicate-node check.
On the duplicate node set `[0, 0]` the division by
`tau_root[j] - tau_root[r] = 0` is reached (over exact rationals the junk
inverse `0⁻¹ = 0` models the non-finite float result), and the build
silently returns corrupt coefficients — the partition of unity fails —
instead of raising an invalid-input error. -/
theorem c9_duplicate_nodes_not_rejected :
    srcD [0, 0] 0 = 0 ∧ srcD [0, 0] 1 = 0
    ∧ ∑ j ∈ Finset.range 2, srcD [0, 0] j ≠ 1 := by
  have h0 : srcD [0, 0] 0 = 0 := by
    norm_num [srcD, srcBasisPoly, polyMul, polyAdd, polyEval,
      List.range_succ]
  have h1 : srcD [0, 0] 1 = 0 := by
    norm_num [srcD, srcBasisPoly, polyMul, polyAdd, polyEval,
      List.range_succ]
  refine ⟨h0, h1, ?_⟩
  rw [Finset.sum_range_succ, Finset.sum_range_one, h0, h1]
  norm_num

end LuteinDO
